import Mathlib

/-
Verification development for the flower repository: the broker task store
(src/py/flwr/server/superlink/state/in_memory_state.py) and the client session
loop (src/py/flwr/client/app.py), shallowly embedded in Lean 4.

Modelling conventions:
* Python dicts are modelled as association lists (List (key, value)); list order
  is the dict's insertion/iteration order.  Python sets passed as arguments are
  modelled as lists (the list order standing for the set's iteration order).
* 128-bit UUIDs are modelled as naturals.  The serialisation str(uuid) is
  modelled by toString, and the ancestry list, which on the wire holds task ids
  as strings, is modelled by the task-id values themselves (so the round-trip
  UUID(str(u)) = u is the identity of the model).
* uuid4() mints, per the spec (section 4.7, "Mint a fresh UUID"), a fresh UUID;
  the mint is modelled by a fresh-supply counter threaded through the state
  (uuid4 collisions are astronomically unlikely and are not modelled).
* Wall-clock / monotonic clock readings (time.time(), now()) are passed in as
  explicit arguments; python floats holding times are modelled as rationals.
* Python exceptions of the store are modelled with Except; the error kind is
  recorded by the PyError inductive below.
-/

namespace Flwr

/-- Error kinds raised by the modelled python code. -/
inductive PyError where
  | assertionError : PyError
  | indexError : PyError
  | keyError : PyError
  | valueError : PyError
deriving DecidableEq, Repr

/-- The producer/consumer field of a task (proto message Node):
node_id and the anonymous flag. -/
structure Node where
  node_id : Int
  anonymous : Bool
deriving DecidableEq, Repr

/-- The inner task record: producer, consumer, ancestry (list of parent task
ids) and the delivered_at ISO-8601 string (empty string = undelivered). -/
structure Task where
  producer : Node
  consumer : Node
  ancestry : List Nat
  delivered_at : String
deriving DecidableEq, Repr

/-- A TaskIns record: the task_id assigned by the store (string form of the
key), the run_id, and the inner task. -/
structure TaskIns where
  task_id : String
  run_id : Int
  task : Task
deriving DecidableEq, Repr

/-- A TaskRes record has exactly the same field shape as a TaskIns (its
ancestry head points back to the TaskIns it answers); it is modelled by the
same structure. -/
abbrev TaskRes := TaskIns

/-- The state of InMemoryState: node registry (node_id to
(online_until, ping_interval)), run-id set, the two task stores, and the
fresh-UUID supply counter (see the modelling notes above). -/
structure StoreState where
  node_ids : List (Int × (Rat × Rat))
  run_ids : List Int
  task_ins_store : List (Nat × TaskIns)
  task_res_store : List (Nat × TaskRes)
  fresh : Nat
deriving DecidableEq, Repr

/-- The state of a freshly constructed InMemoryState. -/
def initState : StoreState :=
  { node_ids := [], run_ids := [], task_ins_store := [], task_res_store := [],
    fresh := 0 }

/-- Modelled from the spec: now().isoformat() (flwr.common.now, not under
src/) renders the current UTC wall-clock time as a nonempty ISO-8601 string;
the clock is abstracted to a Nat tick rendered behind a leading character, so
the result is never the empty string. -/
def isoformat (t : Nat) : String :=
  String.mk ('T' :: (toString t).data)

/-- Modelled from the spec (section 4.8): validate_task_ins_or_res
(flwr.server.utils, not under src/) returns a list of error strings, empty
meaning valid.  Checks, following the spec's words: task_id is empty on
admission; run_id non-zero; exactly one of producer/consumer sides is the node
(rendered as: the two anonymous flags differ); delivered_at empty on
admission; ancestry empty for TaskIns and non-empty for TaskRes.  isTaskIns
distinguishes the two record kinds (isinstance in the source). -/
def validate_task_ins_or_res (isTaskIns : Bool) (t : TaskIns) : List String :=
  (if t.task_id != "" then ["non-empty task_id"] else []) ++
  (if t.run_id == 0 then ["zero run_id"] else []) ++
  (if t.task.producer.anonymous == t.task.consumer.anonymous then
    ["exactly one of producer and consumer must be the node"] else []) ++
  (if t.task.delivered_at != "" then ["non-empty delivered_at"] else []) ++
  (if isTaskIns then
    (if t.task.ancestry != [] then ["non-empty ancestry for TaskIns"] else [])
  else
    (if t.task.ancestry == [] then ["empty ancestry for TaskRes"] else []))

/-- Python truthiness of any(errors) over a list of strings: true iff some
element is a nonempty string. -/
def anyTruthy (errors : List String) : Bool :=
  errors.any (fun e => e != "")

/-- InMemoryState.store_task_ins: validate, check run_id, mint a task_id,
write it into the record and insert under that key; returns the new id, or
none on rejection. -/
def store_task_ins (s : StoreState) (task_ins : TaskIns) :
    Option Nat × StoreState :=
  if anyTruthy (validate_task_ins_or_res true task_ins) then (none, s)
  else if !(s.run_ids.contains task_ins.run_id) then (none, s)
  else
    let task_id := s.fresh
    let t := { task_ins with task_id := toString task_id }
    (some task_id,
      { s with task_ins_store := s.task_ins_store ++ [(task_id, t)],
               fresh := s.fresh + 1 })

/-- InMemoryState.store_task_res: same shape as store_task_ins, writing into
the TaskRes store. -/
def store_task_res (s : StoreState) (task_res : TaskRes) :
    Option Nat × StoreState :=
  if anyTruthy (validate_task_ins_or_res false task_res) then (none, s)
  else if !(s.run_ids.contains task_res.run_id) then (none, s)
  else
    let task_id := s.fresh
    let t := { task_res with task_id := toString task_id }
    (some task_id,
      { s with task_res_store := s.task_res_store ++ [(task_id, t)],
               fresh := s.fresh + 1 })

/-- The selection condition of the get_task_ins scan: the two disjuncts of the
source (node_id non-null, non-anonymous, matching node, undelivered; or
node_id null, anonymous, node 0, undelivered). -/
def insMatches (nodeId : Option Int) (t : TaskIns) : Bool :=
  match nodeId with
  | some n =>
      !t.task.consumer.anonymous && t.task.consumer.node_id == n &&
        t.task.delivered_at == ""
  | none =>
      t.task.consumer.anonymous && t.task.consumer.node_id == 0 &&
        t.task.delivered_at == ""

/-- The python break condition at the end of each loop iteration:
if limit and len(list) == limit.  k is the current length of the selection. -/
def limitHit (limit : Option Int) (k : Nat) : Bool :=
  match limit with
  | none => false
  | some l => l != 0 && (k : Int) == l

/-- The guard at the head of get_task_ins / get_task_res:
limit is not None and limit < 1. -/
def limitLT1 (limit : Option Int) : Bool :=
  match limit with
  | none => false
  | some l => decide (l < 1)

/-- Stamp a record's delivered_at field. -/
def stampTask (ts : String) (t : TaskIns) : TaskIns :=
  { t with task := { t.task with delivered_at := ts } }

/-- The scan loop of get_task_ins over the TaskIns store, with the running
selection length k.  Returns the selected (key, record) pairs (records as
found, before stamping) and the store as it stands at the end of the call
(the source stamps the selected records in place after the scan; the net
effect on the store is the same). -/
def getTaskInsLoop (nodeId : Option Int) (limit : Option Int) (ts : String) :
    List (Nat × TaskIns) → Nat → List (Nat × TaskIns) × List (Nat × TaskIns)
  | [], _ => ([], [])
  | (tid, t) :: rest, k =>
    if insMatches nodeId t then
      if limitHit limit (k + 1) then ([(tid, t)], (tid, stampTask ts t) :: rest)
      else
        let p := getTaskInsLoop nodeId limit ts rest (k + 1)
        ((tid, t) :: p.1, (tid, stampTask ts t) :: p.2)
    else
      let p := getTaskInsLoop nodeId limit ts rest k
      (p.1, (tid, t) :: p.2)

/-- InMemoryState.get_task_ins: assert limit, scan, stamp the selected records
with the current time, return them.  The result pairs each returned record
with the store key it was selected under.  t is the wall-clock tick read by
now(). -/
def get_task_ins (s : StoreState) (nodeId : Option Int) (limit : Option Int)
    (t : Nat) : Except PyError (List (Nat × TaskIns) × StoreState) :=
  if limitLT1 limit then .error .assertionError
  else
    let p := getTaskInsLoop nodeId limit (isoformat t) s.task_ins_store 0
    .ok (p.1.map (fun kv => (kv.1, stampTask (isoformat t) kv.2)),
      { s with task_ins_store := p.2 })

/-- The scan loop of get_task_res.  The source evaluates
UUID(task_res.task.ancestry[0]) for every record reached by the scan, which
raises IndexError when the ancestry is empty: that is the none result. -/
def getTaskResLoop (ids : List Nat) (limit : Option Int) (ts : String) :
    List (Nat × TaskRes) → Nat →
      Option (List (Nat × TaskRes) × List (Nat × TaskRes))
  | [], _ => some ([], [])
  | (tid, t) :: rest, k =>
    match t.task.ancestry.head? with
    | none => none
    | some a =>
      if ids.contains a && t.task.delivered_at == "" then
        if limitHit limit (k + 1) then
          some ([(tid, t)], (tid, stampTask ts t) :: rest)
        else
          match getTaskResLoop ids limit ts rest (k + 1) with
          | none => none
          | some p => some ((tid, t) :: p.1, (tid, stampTask ts t) :: p.2)
      else
        match getTaskResLoop ids limit ts rest k with
        | none => none
        | some p => some (p.1, (tid, t) :: p.2)

/-- InMemoryState.get_task_res: assert limit, scan for undelivered TaskRes
whose ancestry head is among task_ids, stamp and return them.  On IndexError
(empty ancestry reached by the scan) the store is left unchanged. -/
def get_task_res (s : StoreState) (task_ids : List Nat) (limit : Option Int)
    (t : Nat) : Except PyError (List (Nat × TaskRes) × StoreState) :=
  if limitLT1 limit then .error .assertionError
  else
    match getTaskResLoop task_ids limit (isoformat t) s.task_res_store 0 with
    | none => .error .indexError
    | some p =>
      .ok (p.1.map (fun kv => (kv.1, stampTask (isoformat t) kv.2)),
        { s with task_res_store := p.2 })

/-- Python set.add on the model of a set as a list: append if absent. -/
def insertIdem (x : Nat) (l : List Nat) : List Nat :=
  if x ∈ l then l else l ++ [x]

/-- The inner scan of delete_tasks for one task_ins_id: walk the TaskRes
store; skip records whose ancestry head differs or whose delivered_at is
empty; otherwise add both sides to the to-be-deleted sets.  Evaluating
ancestry[0] on an empty ancestry raises IndexError (none). -/
def scanOne (insId : Nat) (resStore : List (Nat × TaskRes))
    (acc : List Nat × List Nat) : Option (List Nat × List Nat) :=
  match resStore with
  | [] => some acc
  | (resId, r) :: rest =>
    match r.task.ancestry.head? with
    | none => none
    | some a =>
      if a != insId then scanOne insId rest acc
      else if r.task.delivered_at == "" then scanOne insId rest acc
      else scanOne insId rest (insertIdem insId acc.1, insertIdem resId acc.2)

/-- The outer scan of delete_tasks: one inner scan per id in task_ids. -/
def scanPairs (resStore : List (Nat × TaskRes)) :
    List Nat → List Nat × List Nat → Option (List Nat × List Nat)
  | [], acc => some acc
  | i :: rest, acc =>
    match scanOne i resStore acc with
    | none => none
    | some acc' => scanPairs resStore rest acc'

/-- The deletion loop of delete_tasks: del store[k] for each collected key,
raising KeyError (with the store as mutated so far) when a key is absent. -/
def delFold : List (Nat × TaskIns) → List Nat →
    Except (List (Nat × TaskIns)) (List (Nat × TaskIns))
  | store, [] => .ok store
  | store, k :: rest =>
    if store.any (fun kv => kv.1 == k) then
      delFold (store.filter (fun kv => kv.1 != k)) rest
    else .error store

/-- InMemoryState.delete_tasks: scan for delivered TaskRes records paired (by
ancestry head) with the given ids, then delete the collected TaskIns keys and
then the collected TaskRes keys.  A raised exception carries the state as left
behind by the partial mutation: IndexError from the scan leaves the state
unchanged; KeyError from the TaskIns deletion loop leaves the TaskRes store
untouched. -/
def delete_tasks (s : StoreState) (task_ids : List Nat) :
    Except (PyError × StoreState) StoreState :=
  match scanPairs s.task_res_store task_ids ([], []) with
  | none => .error (.indexError, s)
  | some acc =>
    match delFold s.task_ins_store acc.1 with
    | .error part => .error (.keyError, { s with task_ins_store := part })
    | .ok ins' =>
      match delFold s.task_res_store acc.2 with
      | .error part =>
        .error (.keyError, { s with task_ins_store := ins',
                                    task_res_store := part })
      | .ok res' =>
        .ok { s with task_ins_store := ins', task_res_store := res' }

/-- InMemoryState.create_node: rand models the os.urandom sample, t the
time.time() reading.  The default ping interval in the source is 1e9 seconds
(the TODO about 30 s is left as the code has it). -/
def create_node (s : StoreState) (rand : Int) (t : Rat) : Int × StoreState :=
  if !(s.node_ids.any (fun kv => kv.1 == rand)) then
    (rand, { s with node_ids :=
      s.node_ids ++ [(rand, (t + 1000000000, 1000000000))] })
  else (0, s)

/-- InMemoryState.delete_node: remove the node, raising ValueError when it is
unknown. -/
def delete_node (s : StoreState) (node_id : Int) : Except PyError StoreState :=
  if !(s.node_ids.any (fun kv => kv.1 == node_id)) then .error .valueError
  else .ok { s with node_ids := s.node_ids.filter (fun kv => kv.1 != node_id) }

/-- InMemoryState.get_nodes: empty for an unknown run_id, otherwise the ids of
the registered nodes whose online_until exceeds the current time t. -/
def get_nodes (s : StoreState) (run_id : Int) (t : Rat) : List Int :=
  if !(s.run_ids.contains run_id) then []
  else (s.node_ids.filter (fun kv => decide (t < kv.2.1))).map (fun kv => kv.1)

/-- InMemoryState.create_run: rand models the os.urandom sample; add it to
run_ids unless present, in which case return the failure sentinel 0. -/
def create_run (s : StoreState) (rand : Int) : Int × StoreState :=
  if !(s.run_ids.contains rand) then
    (rand, { s with run_ids := s.run_ids ++ [rand] })
  else (0, s)

/-- InMemoryState.acknowledge_ping: refresh a registered node's entry to
(t + ping_interval, ping_interval) and return true; false for an unknown
node. -/
def acknowledge_ping (s : StoreState) (node_id : Int) (ping_interval : Rat)
    (t : Rat) : Bool × StoreState :=
  if s.node_ids.any (fun kv => kv.1 == node_id) then
    (true, { s with node_ids := s.node_ids.map (fun kv =>
      if kv.1 == node_id then (node_id, (t + ping_interval, ping_interval))
      else kv) })
  else (false, s)

/-! Client side: flwr/client/app.py and the transport constants of
flwr/common/constant.py. -/

/-- Transport name constant from flwr.common.constant. -/
def TRANSPORT_TYPE_GRPC_BIDI : String := "grpc-bidi"

/-- Transport name constant from flwr.common.constant. -/
def TRANSPORT_TYPE_GRPC_RERE : String := "grpc-rere"

/-- Transport name constant from flwr.common.constant. -/
def TRANSPORT_TYPE_REST : String := "rest"

/-- The certificate handling at the top of run_client_app (app.py lines
60-88): with the insecure flag set, a supplied root-certificates path is a
fatal configuration conflict (sys.exit with a message), otherwise no
certificate material is used; without the flag, the certificate file named by
the path is loaded when a path was given (the loaded bytes are modelled by the
path string itself). -/
def runClientAppObtainCertificates (insecure : Bool)
    (root_certificates : Option String) : Except String (Option String) :=
  if insecure then
    match root_certificates with
    | some _ =>
      .error "Conflicting options: insecure mode excludes root certificates"
    | none => .ok none
  else .ok root_certificates

/-- The defaulting of the insecure flag at the top of _start_client_internal
(app.py lines 365-366): when unset it becomes the statement that no
root-certificate material was supplied; when set it is kept. -/
def resolveInsecure (insecure : Option Bool)
    (root_certificates : Option String) : Bool :=
  match insecure with
  | none => root_certificates.isNone
  | some b => b

/-- The TLS-relevant configuration handling of _start_client_internal: the
insecure defaulting of lines 365-366 is the only treatment of the
insecure/root_certificates inputs in the function, and the resulting pair is
what the transport scope is entered with (lines 439-445); the function
performs no conflict rejection of its own. -/
def startClientInternalTLS (insecure : Option Bool)
    (root_certificates : Option String) : Bool × Option String :=
  (resolveInsecure insecure root_certificates, root_certificates)

/-- A python exception as the session loop sees it: the class name and the
message. -/
structure PyExc where
  excName : String
  msg : String
deriving DecidableEq, Repr

/-- Python str(type(ex)): the class rendering. -/
def pyStrType (e : PyExc) : String := "<class " ++ sQ e.excName ++ ">" where
  /-- Wrap a string in single quotes (char 39). -/
  sQ (s : String) : String :=
    String.mk (Char.ofNat 39 :: s.data) ++ String.mk [Char.ofNat 39]

/-- Python str(ex): the message. -/
def pyStr (e : PyExc) : String := e.msg

/-- The error-reply reason built in the except branch of the session loop:
str(type(ex)) + colon + quoted str(ex). -/
def excReason (e : PyExc) : String :=
  pyStrType e ++ ":<" ++ String.mk [Char.ofNat 39] ++ pyStr e ++
    String.mk [Char.ofNat 39] ++ ">"

/-- An inbound message, reduced to the metadata the handled fragment reads. -/
structure Message where
  run_id : Int
  payload : Nat
deriving DecidableEq, Repr

/-- The Error record of flwr.common.message. -/
structure Error where
  code : Int
  reason : String
deriving DecidableEq, Repr

/-- An outbound reply: either a content reply produced by the ClientApp or an
error reply fabricated from the original message. -/
inductive OutMessage where
  | content : Message → Nat → OutMessage
  | errorReply : Message → Error → OutMessage
deriving DecidableEq, Repr

/-- Message.create_error_reply: fabricate an error reply mirroring the
message. -/
def Message.create_error_reply (m : Message) (e : Error) : OutMessage :=
  .errorReply m e

/-- Modelled from the spec (section 4.5): the per-run context store NodeState
(flwr.client.node_state, not under src/).  Contexts are opaque; they are
modelled as naturals, a fresh context being 0. -/
structure NodeState where
  run_states : List (Int × Nat)
deriving DecidableEq, Repr

/-- Modelled from the spec (section 4.5): register_context is idempotent and
creates a fresh context when the run is absent. -/
def register_context (ns : NodeState) (run_id : Int) : NodeState :=
  if ns.run_states.any (fun kv => kv.1 == run_id) then ns
  else { run_states := ns.run_states ++ [(run_id, 0)] }

/-- Modelled from the spec (section 4.5): retrieve_context returns the stored
context; it is always preceded by register_context. -/
def retrieve_context (ns : NodeState) (run_id : Int) : Nat :=
  (ns.run_states.lookup run_id).getD 0

/-- Modelled from the spec (section 4.5): update_context replaces the stored
context for the run. -/
def update_context (ns : NodeState) (run_id : Int) (ctx : Nat) : NodeState :=
  { run_states := ns.run_states.map (fun kv =>
      if kv.1 == run_id then (run_id, ctx) else kv) }

/-- The fragment of the session loop's inner pump handling one non-control
message (app.py lines 479-521, after handle_control_message produced no
control reply): register and retrieve the run context, invoke the ClientApp
(modelled as a function from the context to either an exception or a reply
and an updated context), on success update the context, on failure re-raise
under the grpc-bidi transport (or transport None) and otherwise fabricate an
error reply with code 0 and the concatenated reason, leaving the node state
as it stood after registration.  Returns the node state and the reply that is
then sent. -/
def handleAppMessage (transport : Option String) (ns : NodeState)
    (msg : Message) (app : Nat → Except PyExc (OutMessage × Nat)) :
    Except PyExc (NodeState × OutMessage) :=
  let ns1 := register_context ns msg.run_id
  let context := retrieve_context ns1 msg.run_id
  match app context with
  | .ok r => .ok (update_context ns1 msg.run_id r.2, r.1)
  | .error ex =>
    if transport == some TRANSPORT_TYPE_GRPC_BIDI || transport == none then
      .error ex
    else
      .ok (ns1, msg.create_error_reply { code := 0, reason := excReason ex })

/-! Operation traces over the store, for the whole-history invariants.
Clock readings and random samples appear as operation arguments (see the
modelling notes at the top). -/

/-- One invocation of a store operation, with its external inputs. -/
inductive Op where
  | storeTaskIns : TaskIns → Op
  | storeTaskRes : TaskRes → Op
  | getTaskIns : Option Int → Option Int → Nat → Op
  | getTaskRes : List Nat → Option Int → Nat → Op
  | deleteTasks : List Nat → Op
  | createNode : Int → Rat → Op
  | deleteNode : Int → Op
  | getNodes : Int → Rat → Op
  | createRun : Int → Op
  | acknowledgePing : Int → Rat → Rat → Op

/-- The state after one operation.  A raised exception propagates to the
caller and leaves behind the state as mutated up to the raise (for the store
operations above, that is the unchanged state except for delete_tasks, whose
error carries its partial state). -/
def step (s : StoreState) : Op → StoreState
  | .storeTaskIns t => (store_task_ins s t).2
  | .storeTaskRes t => (store_task_res s t).2
  | .getTaskIns nid lim t =>
    match get_task_ins s nid lim t with
    | .ok p => p.2
    | .error _ => s
  | .getTaskRes ids lim t =>
    match get_task_res s ids lim t with
    | .ok p => p.2
    | .error _ => s
  | .deleteTasks ids =>
    match delete_tasks s ids with
    | .ok s' => s'
    | .error e => e.2
  | .createNode r t => (create_node s r t).2
  | .deleteNode nid =>
    match delete_node s nid with
    | .ok s' => s'
    | .error _ => s
  | .getNodes _ _ => s
  | .createRun r => (create_run s r).2
  | .acknowledgePing nid p t => (acknowledge_ping s nid p t).2

/-- The store keys of the task records an operation hands back to its caller
(nonempty only for the two get operations). -/
def getOut (s : StoreState) : Op → List Nat
  | .getTaskIns nid lim t =>
    match get_task_ins s nid lim t with
    | .ok p => p.1.map (fun kv => kv.1)
    | .error _ => []
  | .getTaskRes ids lim t =>
    match get_task_res s ids lim t with
    | .ok p => p.1.map (fun kv => kv.1)
    | .error _ => []
  | _ => []

/-- Run a sequence of operations. -/
def execOps (s : StoreState) : List Op → StoreState
  | [] => s
  | op :: rest => execOps (step s op) rest

/-- Keys of the TaskIns store. -/
def insKeys (s : StoreState) : List Nat :=
  s.task_ins_store.map (fun kv => kv.1)

/-- Keys of the TaskRes store. -/
def resKeys (s : StoreState) : List Nat :=
  s.task_res_store.map (fun kv => kv.1)

/-- Well-formedness of the stores on reachable states: distinct keys in each
store, cross-store key disjointness, and every key below the fresh-supply
counter. -/
structure KeysOk (s : StoreState) : Prop where
  ndIns : (insKeys s).Nodup
  ndRes : (resKeys s).Nodup
  disj : ∀ k, k ∈ insKeys s → k ∉ resKeys s
  bndIns : ∀ k ∈ insKeys s, k < s.fresh
  bndRes : ∀ k ∈ resKeys s, k < s.fresh

/-- Every record stored under key i (in either store) carries a nonempty
delivered_at. -/
def StampedAt (s : StoreState) (i : Nat) : Prop :=
  (∀ r, (i, r) ∈ s.task_ins_store → r.task.delivered_at ≠ "") ∧
  (∀ r, (i, r) ∈ s.task_res_store → r.task.delivered_at ≠ "")

/-- The stability invariant behind delivery-once: the key is spent (below the
fresh supply) and every record under it is stamped. -/
def SafeAt (s : StoreState) (i : Nat) : Prop :=
  i < s.fresh ∧ StampedAt s i

/-- Truncation by the optional limit argument. -/
def takeLimit (limit : Option Int) (l : List α) : List α :=
  match limit with
  | none => l
  | some n => l.take n.toNat

/-- Some delivered TaskRes in the given store has ancestry head i (the
pairing relation delete_tasks scans for; the TaskIns's own delivered_at is
not part of it). -/
def hasDeliveredRes (resStore : List (Nat × TaskRes)) (i : Nat) : Prop :=
  ∃ e ∈ resStore, e.2.task.ancestry.head? = some i ∧
    e.2.task.delivered_at ≠ ""

instance (resStore : List (Nat × TaskRes)) (i : Nat) :
    Decidable (hasDeliveredRes resStore i) := by
  unfold hasDeliveredRes
  infer_instance

/-- The TaskRes entry under key rid is delivered and answers one of the given
ids: the records delete_tasks removes from the TaskRes store. -/
def resSelected (resStore : List (Nat × TaskRes)) (ids : List Nat)
    (rid : Nat) : Prop :=
  ∃ e ∈ resStore, e.1 = rid ∧
    (∃ a ∈ ids, e.2.task.ancestry.head? = some a) ∧
    e.2.task.delivered_at ≠ ""

instance (resStore : List (Nat × TaskRes)) (ids : List Nat) (rid : Nat) :
    Decidable (resSelected resStore ids rid) := by
  unfold resSelected
  infer_instance

/-! Concrete records and states used by the per-claim evaluation theorems. -/

/-- A valid anonymous TaskIns for run 5. -/
def wIns : TaskIns :=
  { task_id := "", run_id := 5,
    task := { producer := { node_id := 1, anonymous := false },
              consumer := { node_id := 0, anonymous := true },
              ancestry := [], delivered_at := "" } }

/-- A valid TaskRes for run 5 answering the TaskIns stored under key 0. -/
def wRes : TaskRes :=
  { task_id := "", run_id := 5,
    task := { producer := { node_id := 0, anonymous := true },
              consumer := { node_id := 1, anonymous := false },
              ancestry := [0], delivered_at := "" } }

/-- A TaskIns targeted at node 42. -/
def wIns42 : TaskIns :=
  { task_id := "", run_id := 5,
    task := { producer := { node_id := 1, anonymous := false },
              consumer := { node_id := 42, anonymous := false },
              ancestry := [], delivered_at := "" } }

/-- A store holding an undelivered TaskIns under key 0 and a delivered TaskRes
answering it under key 1. -/
def wStoreUndeliveredIns : StoreState :=
  { initState with task_ins_store := [(0, wIns)],
                   task_res_store := [(1, stampTask "d" wRes)] }

/-- A store holding a delivered orphan TaskRes (its ancestry names task id 0,
but no TaskIns is stored under 0). -/
def wStoreOrphan : StoreState :=
  { initState with task_res_store := [(1, stampTask "d" wRes)] }

/-- A store with run 5 registered and two undelivered anonymous TaskIns. -/
def wStoreTwoAnon : StoreState :=
  { initState with run_ids := [5], task_ins_store := [(0, wIns), (1, wIns)],
                   fresh := 2 }

/-- A store holding a fully delivered TaskIns/TaskRes pair (keys 0 and 1). -/
def wStorePairDelivered : StoreState :=
  { initState with task_ins_store := [(0, stampTask "x" wIns)],
                   task_res_store := [(1, stampTask "d" wRes)], fresh := 2 }

/-- A ClientApp invocation that raises ZeroDivisionError. -/
def wZeroDivApp : Nat → Except PyExc (OutMessage × Nat) :=
  fun _ => .error { excName := "ZeroDivisionError", msg := "division by zero" }

/-- Decidable equality of Except results, needed to evaluate the store
operations on concrete inputs. -/
instance {e : Type} {a : Type} [DecidableEq e] [DecidableEq a] :
    DecidableEq (Except e a) := fun x y =>
  match x, y with
  | .ok u, .ok v =>
    if h : u = v then isTrue (by rw [h]) else
      isFalse (fun hc => h (Except.ok.inj hc))
  | .error u, .error v =>
    if h : u = v then isTrue (by rw [h]) else
      isFalse (fun hc => h (Except.error.inj hc))
  | .ok _, .error _ => isFalse (fun hc => Except.noConfusion hc)
  | .error _, .ok _ => isFalse (fun hc => Except.noConfusion hc)

/-! Theorems. -/

/-- Claim C9: when the insecure flag of the client session loop is left unset,
it is defaulted to true exactly when no root-certificate material was
supplied, and to false when root certificates were supplied. -/
theorem C9_insecure_defaulting (rc : Option String) :
    ((startClientInternalTLS none rc).1 = true ↔ rc = none) ∧
    ((startClientInternalTLS none rc).1 = false ↔ rc ≠ none) := by
  cases rc <;> simp [startClientInternalTLS, resolveInsecure]

/-- Counterexample to claim C8: on the programmatic start_client path,
an invocation with insecure = true and root-certificate material supplied is
not rejected: _start_client_internal resolves the flag and hands the
conflicting pair straight to the transport scope. -/
theorem C8_counterexample :
    startClientInternalTLS (some true) (some "ca.pem") = (true, some "ca.pem") :=
  rfl

/-- Claim C8 (amended): the CLI entry point run_client_app rejects the
combination of the insecure flag with supplied root certificates before any
connection is attempted, but the programmatic start_client path performs no
such rejection and forwards the conflicting configuration to the transport. -/
theorem C8_amended_cli_rejects (p : String) :
    (∃ e, runClientAppObtainCertificates true (some p) = .error e) ∧
    startClientInternalTLS (some true) (some p) = (true, some p) := by
  exact ⟨⟨_, rfl⟩, rfl⟩

/-- Claim C4: when the ClientApp invocation for a non-control message raises,
the session loop under the grpc-rere or rest transport still produces a reply
whose error code is 0 and whose error reason is the concatenation of the
exception's type rendering and its quoted message, and the node-state for the
run is exactly as registration left it (not updated); under the grpc-bidi
transport or transport None the exception is re-raised. -/
theorem C4_app_failure_reply (ns : NodeState) (msg : Message)
    (app : Nat → Except PyExc (OutMessage × Nat)) (ex : PyExc)
    (happ : app (retrieve_context (register_context ns msg.run_id) msg.run_id)
      = .error ex) :
    (∀ tr, tr = some TRANSPORT_TYPE_GRPC_RERE ∨ tr = some TRANSPORT_TYPE_REST →
      handleAppMessage tr ns msg app =
        .ok (register_context ns msg.run_id,
          msg.create_error_reply
            { code := 0,
              reason := pyStrType ex ++ ":<" ++ String.mk [Char.ofNat 39] ++
                pyStr ex ++ String.mk [Char.ofNat 39] ++ ">" })) ∧
    (∀ tr, tr = some TRANSPORT_TYPE_GRPC_BIDI ∨ tr = none →
      handleAppMessage tr ns msg app = .error ex) := by
  simp only [handleAppMessage]
  rw [happ]
  constructor
  · rintro tr (rfl | rfl) <;> simp [TRANSPORT_TYPE_GRPC_RERE,
      TRANSPORT_TYPE_GRPC_BIDI, TRANSPORT_TYPE_REST, excReason]
  · rintro tr (rfl | rfl) <;> simp [TRANSPORT_TYPE_GRPC_BIDI]

/-- Witness for C4 at a concrete failing app: the reason has the documented
shape for ZeroDivisionError and the node state is the registration-time
state. -/
theorem C4_witness :
    wZeroDivApp (retrieve_context (register_context ⟨[]⟩ 5) 5) =
      .error { excName := "ZeroDivisionError", msg := "division by zero" } ∧
    handleAppMessage (some TRANSPORT_TYPE_GRPC_RERE) ⟨[]⟩ ⟨5, 0⟩ wZeroDivApp =
      .ok (register_context ⟨[]⟩ 5,
        OutMessage.errorReply ⟨5, 0⟩
          { code := 0,
            reason :=
              "<class \x27ZeroDivisionError\x27>:<\x27division by zero\x27>" }) := by
  refine ⟨rfl, ?_⟩
  have h := (C4_app_failure_reply ⟨[]⟩ ⟨5, 0⟩ wZeroDivApp
    { excName := "ZeroDivisionError", msg := "division by zero" } rfl).1
    (some TRANSPORT_TYPE_GRPC_RERE) (Or.inl rfl)
  exact h.trans (by rfl)

/-- Bridge between the boolean membership test of the source and list
membership. -/
theorem listContains_iff {α : Type} [BEq α] [LawfulBEq α] {l : List α}
    {a : α} : l.contains a = true ↔ a ∈ l :=
  List.elem_iff

/-- Claim C6: get_nodes(run_id) is empty when run_id is unknown, and otherwise
holds exactly the registered node ids whose online_until is strictly greater
than the current time, regardless of run. -/
theorem C6_get_nodes_members (s : StoreState) (run_id : Int) (t : Rat)
    (n : Int) :
    n ∈ get_nodes s run_id t ↔
      run_id ∈ s.run_ids ∧
        ∃ ou ping, (n, (ou, ping)) ∈ s.node_ids ∧ t < ou := by
  unfold get_nodes
  cases h : s.run_ids.contains run_id with
  | true =>
    have hmem : run_id ∈ s.run_ids := listContains_iff.mp h
    simp only [h, Bool.not_true, Bool.false_eq_true, if_false, List.mem_map,
      List.mem_filter, decide_eq_true_eq, hmem, true_and]
    constructor
    · rintro ⟨⟨k, ou, ping⟩, ⟨hm, hlt⟩, rfl⟩
      exact ⟨ou, ping, hm, hlt⟩
    · rintro ⟨ou, ping, hm, hlt⟩
      exact ⟨(n, ou, ping), ⟨hm, hlt⟩, rfl⟩
  | false =>
    have hmem : run_id ∉ s.run_ids := fun hm =>
      by rw [listContains_iff.mpr hm] at h; cases h
    simp only [h, Bool.not_false, if_true, List.not_mem_nil, false_iff]
    rintro ⟨hm, -⟩
    exact hmem hm

/-- After refreshing node nid, looking up nid yields the new value (given nid
was registered). -/
theorem lookup_refresh_self (l : List (Int × (Rat × Rat))) (nid : Int)
    (v : Rat × Rat) (h : l.any (fun kv => kv.1 == nid) = true) :
    (l.map (fun kv => if kv.1 == nid then (nid, v) else kv)).lookup nid
      = some v := by
  induction l with
  | nil => simp at h
  | cons kv rest ih =>
    obtain ⟨k, w⟩ := kv
    by_cases hk : k = nid
    · subst hk
      simp [List.lookup_cons]
    · have hk' : (k == nid) = false := beq_eq_false_iff_ne.mpr hk
      have hr : rest.any (fun kv => kv.1 == nid) = true := by
        simpa [List.any_cons, hk'] using h
      have hn : (nid == k) = false := beq_eq_false_iff_ne.mpr (Ne.symm hk)
      simp [List.lookup_cons, hk, hk', hn]
      simpa using ih hr

/-- Refreshing node nid leaves the lookup of every other node unchanged. -/
theorem lookup_refresh_other (l : List (Int × (Rat × Rat))) (nid : Int)
    (v : Rat × Rat) (m : Int) (hm : m ≠ nid) :
    (l.map (fun kv => if kv.1 == nid then (nid, v) else kv)).lookup m
      = l.lookup m := by
  induction l with
  | nil => rfl
  | cons kv rest ih =>
    obtain ⟨k, w⟩ := kv
    by_cases hk : k = nid
    · subst hk
      have hmn : (m == k) = false := beq_eq_false_iff_ne.mpr hm
      simp [List.lookup_cons, hmn]
      simpa using ih
    · by_cases hmk : m = k
      · subst hmk
        simp [List.lookup_cons, hk]
      · have hmk' : (m == k) = false := beq_eq_false_iff_ne.mpr hmk
        simp [List.lookup_cons, hk, hmk']
        simpa using ih

/-- Claim C7: acknowledge_ping returns true and rewrites the node's registry
entry to (now + ping_interval, ping_interval) when the node is registered;
for an unknown node it returns false and leaves the whole state unchanged. -/
theorem C7_acknowledge_ping_spec (s : StoreState) (nid : Int)
    (ping_interval t : Rat) :
    ((acknowledge_ping s nid ping_interval t).1
      = s.node_ids.any (fun kv => kv.1 == nid)) ∧
    (s.node_ids.any (fun kv => kv.1 == nid) = true →
      ((acknowledge_ping s nid ping_interval t).2.node_ids.lookup nid
          = some (t + ping_interval, ping_interval) ∧
        ∀ m, m ≠ nid →
          (acknowledge_ping s nid ping_interval t).2.node_ids.lookup m
            = s.node_ids.lookup m)) ∧
    (s.node_ids.any (fun kv => kv.1 == nid) = false →
      (acknowledge_ping s nid ping_interval t).2 = s) := by
  refine ⟨?_, ?_, ?_⟩
  · unfold acknowledge_ping
    cases hany : s.node_ids.any (fun kv => kv.1 == nid) with
    | true => simp [hany]
    | false => simp [hany]
  · intro h
    unfold acknowledge_ping
    simp only [h, if_true]
    exact ⟨lookup_refresh_self _ _ _ h,
      fun m hm => lookup_refresh_other _ _ _ _ hm⟩
  · intro h
    unfold acknowledge_ping
    simp [h]

/-- Witness for C7 at a concrete registry: node 3 is registered, its entry is
refreshed and node 9 is untouched; node 8 is unknown and the state is
unchanged. -/
theorem C7_witness :
    (({ initState with
        node_ids := [(3, (0, 1)), (9, (4, 2))] } : StoreState).node_ids.any
          (fun kv => kv.1 == (3 : Int)) = true ∧
      (acknowledge_ping { initState with
        node_ids := [(3, (0, 1)), (9, (4, 2))] } 3 30 10).2.node_ids.lookup 3
        = some (40, 30)) ∧
    (({ initState with
        node_ids := [(3, (0, 1)), (9, (4, 2))] } : StoreState).node_ids.any
          (fun kv => kv.1 == (8 : Int)) = false ∧
      (acknowledge_ping { initState with
        node_ids := [(3, (0, 1)), (9, (4, 2))] } 8 30 10).2
        = { initState with node_ids := [(3, (0, 1)), (9, (4, 2))] }) := by
  constructor
  · refine ⟨by decide, ?_⟩
    have h := (C7_acknowledge_ping_spec
      { initState with node_ids := [(3, (0, 1)), (9, (4, 2))] } 3 30 10).2.1
      (by decide)
    exact h.1.trans (by norm_num)
  · refine ⟨by decide, ?_⟩
    exact (C7_acknowledge_ping_spec
      { initState with node_ids := [(3, (0, 1)), (9, (4, 2))] } 8 30 10).2.2
      (by decide)

/-- Claim C5: store_task_ins and store_task_res return none and leave the
state unchanged whenever the validator reports an error or the run_id is
unknown; on success they mint a fresh id (fresh relative to every key in use,
given the key bound of reachable states), append the record under that key
with its task_id field set to the id, and return the same id. -/
theorem C5_store_reject_or_insert (s : StoreState) (t : TaskIns) :
    (anyTruthy (validate_task_ins_or_res true t) = true →
      store_task_ins s t = (none, s)) ∧
    (s.run_ids.contains t.run_id = false → store_task_ins s t = (none, s)) ∧
    (anyTruthy (validate_task_ins_or_res false t) = true →
      store_task_res s t = (none, s)) ∧
    (s.run_ids.contains t.run_id = false → store_task_res s t = (none, s)) ∧
    (anyTruthy (validate_task_ins_or_res true t) = false →
      s.run_ids.contains t.run_id = true →
      ∃ k s', store_task_ins s t = (some k, s') ∧
        s'.task_ins_store =
          s.task_ins_store ++ [(k, { t with task_id := toString k })] ∧
        s'.task_res_store = s.task_res_store ∧
        ((∀ k' ∈ insKeys s ++ resKeys s, k' < s.fresh) →
          k ∉ insKeys s ++ resKeys s)) ∧
    (anyTruthy (validate_task_ins_or_res false t) = false →
      s.run_ids.contains t.run_id = true →
      ∃ k s', store_task_res s t = (some k, s') ∧
        s'.task_res_store =
          s.task_res_store ++ [(k, { t with task_id := toString k })] ∧
        s'.task_ins_store = s.task_ins_store ∧
        ((∀ k' ∈ insKeys s ++ resKeys s, k' < s.fresh) →
          k ∉ insKeys s ++ resKeys s)) := by
  refine ⟨?_, ?_, ?_, ?_, ?_, ?_⟩
  · intro h
    simp [store_task_ins, h]
  · intro h
    unfold store_task_ins
    split
    · rfl
    · simp only [h, Bool.not_false, if_true]
  · intro h
    simp [store_task_res, h]
  · intro h
    unfold store_task_res
    split
    · rfl
    · simp only [h, Bool.not_false, if_true]
  · intro hv hr
    have heq : store_task_ins s t =
        (some s.fresh,
          { node_ids := s.node_ids, run_ids := s.run_ids,
            task_ins_store := s.task_ins_store ++
              [(s.fresh, { t with task_id := toString s.fresh })],
            task_res_store := s.task_res_store,
            fresh := s.fresh + 1 }) := by
      simp [store_task_ins, hv, listContains_iff.mp hr]
    exact ⟨s.fresh, _, heq, rfl, rfl,
      fun hb hmem => absurd (hb _ hmem) (lt_irrefl _)⟩
  · intro hv hr
    have heq : store_task_res s t =
        (some s.fresh,
          { node_ids := s.node_ids, run_ids := s.run_ids,
            task_ins_store := s.task_ins_store,
            task_res_store := s.task_res_store ++
              [(s.fresh, { t with task_id := toString s.fresh })],
            fresh := s.fresh + 1 }) := by
      simp [store_task_res, hv, listContains_iff.mp hr]
    exact ⟨s.fresh, _, heq, rfl, rfl,
      fun hb hmem => absurd (hb _ hmem) (lt_irrefl _)⟩

/-- Witness for C5: a record with nonempty delivered_at is rejected with the
store untouched; the valid record wIns is inserted under the minted key with
its task_id set to that key's string form. -/
theorem C5_witness :
    (anyTruthy (validate_task_ins_or_res true (stampTask "d" wIns)) = true ∧
      store_task_ins wStoreTwoAnon (stampTask "d" wIns)
        = (none, wStoreTwoAnon)) ∧
    (anyTruthy (validate_task_ins_or_res true wIns) = false ∧
      wStoreTwoAnon.run_ids.contains wIns.run_id = true ∧
      ∃ k s', store_task_ins wStoreTwoAnon wIns = (some k, s') ∧
        s'.task_ins_store = wStoreTwoAnon.task_ins_store ++
          [(k, { wIns with task_id := toString k })]) := by
  constructor
  · exact ⟨by decide,
      (C5_store_reject_or_insert wStoreTwoAnon (stampTask "d" wIns)).1
        (by decide)⟩
  · obtain ⟨k, s', h1, h2, -, -⟩ :=
      (C5_store_reject_or_insert wStoreTwoAnon wIns).2.2.2.2.1
        (by decide) (by decide)
    exact ⟨by decide, by decide, k, s', h1, h2⟩

/-- With no limit, the get_task_ins scan selects exactly the matching records
in store order. -/
theorem getTaskInsLoop_sel_noLimit (nodeId : Option Int) (ts : String) :
    ∀ (store : List (Nat × TaskIns)) (k : Nat),
      (getTaskInsLoop nodeId none ts store k).1
        = store.filter (fun kv => insMatches nodeId kv.2) := by
  intro store
  induction store with
  | nil => intro k; rfl
  | cons kv rest ih =>
    intro k
    obtain ⟨tid, t⟩ := kv
    cases hm : insMatches nodeId t with
    | true =>
      simp [getTaskInsLoop, hm, limitHit, List.filter_cons, ih]
    | false =>
      simp [getTaskInsLoop, hm, List.filter_cons, ih]

/-- With limit l at least 1 and k entries already selected, the get_task_ins
scan selects the first l - k matching records. -/
theorem getTaskInsLoop_sel_limit (nodeId : Option Int) (ts : String) (l : Int)
    (hl : 1 ≤ l) :
    ∀ (store : List (Nat × TaskIns)) (k : Nat), k < l.toNat →
      (getTaskInsLoop nodeId (some l) ts store k).1
        = (store.filter (fun kv => insMatches nodeId kv.2)).take
            (l.toNat - k) := by
  intro store
  induction store with
  | nil => intro k hk; simp [getTaskInsLoop]
  | cons kv rest ih =>
    intro k hk
    obtain ⟨tid, t⟩ := kv
    cases hm : insMatches nodeId t with
    | false =>
      simp [getTaskInsLoop, hm, List.filter_cons, ih k hk]
    | true =>
      by_cases heq : k + 1 = l.toNat
      · have hhit : limitHit (some l) (k + 1) = true := by
          simp [limitHit]
          omega
        have hsub : l.toNat - k = 1 := by omega
        simp [getTaskInsLoop, hm, hhit, List.filter_cons, hsub]
      · have hhit : limitHit (some l) (k + 1) = false := by
          simp [limitHit]
          omega
        have hk' : k + 1 < l.toNat := by omega
        have hsub : l.toNat - k = (l.toNat - (k + 1)) + 1 := by omega
        simp [getTaskInsLoop, hm, hhit, List.filter_cons, ih (k + 1) hk',
          hsub]

/-- Claim C3: get_task_ins fails the assertion exactly when a non-null limit
is below 1; otherwise it returns precisely the undelivered records matching
the node_id filter (anonymous node-0 records for a null node_id, the node's
non-anonymous records otherwise), in store iteration order, truncated to at
most limit records, each stamped with the current timestamp. -/
theorem C3_get_task_ins_spec (s : StoreState) (nodeId : Option Int)
    (limit : Option Int) (t : Nat) :
    (limitLT1 limit = true →
      get_task_ins s nodeId limit t = .error .assertionError) ∧
    (limitLT1 limit = false →
      ∃ s', get_task_ins s nodeId limit t =
        .ok ((takeLimit limit
            (s.task_ins_store.filter (fun kv => insMatches nodeId kv.2))).map
          (fun kv => (kv.1, stampTask (isoformat t) kv.2)), s')) ∧
    (∀ l res s', limit = some l →
      get_task_ins s nodeId limit t = .ok (res, s') →
      res.length ≤ l.toNat) := by
  refine ⟨?_, ?_, ?_⟩
  · intro h
    simp [get_task_ins, h]
  · intro h
    cases limit with
    | none =>
      exact ⟨_, by
        simp only [get_task_ins, h, Bool.false_eq_true, if_false]
        rw [getTaskInsLoop_sel_noLimit]
        rfl⟩
    | some l =>
      have hl : 1 ≤ l := by
        simp only [limitLT1, decide_eq_false_iff_not, not_lt] at h
        exact h
      have h0 : 0 < l.toNat := by omega
      exact ⟨_, by
        simp only [get_task_ins, h, Bool.false_eq_true, if_false]
        rw [getTaskInsLoop_sel_limit nodeId _ l hl _ 0 h0]
        simp only [takeLimit, Nat.sub_zero]
        rfl⟩
  · rintro l res s' rfl heq
    unfold get_task_ins at heq
    split at heq
    · cases heq
    · rename_i h
      have hl : 1 ≤ l := by
        simp only [limitLT1, Bool.not_eq_true, decide_eq_false_iff_not,
          not_lt] at h
        exact h
      have h0 : 0 < l.toNat := by omega
      simp only [getTaskInsLoop_sel_limit nodeId (isoformat t) l hl
        s.task_ins_store 0 h0] at heq
      have hres := congrArg Prod.fst (Except.ok.inj heq)
      simp only at hres
      rw [← hres]
      simp only [List.length_map, Nat.sub_zero]
      exact List.length_take_le _ _

/-- Witness for C3: on a store with two undelivered anonymous tasks, a limit
of 0 trips the assertion; an anonymous fetch with limit 1 returns exactly the
first matching record, stamped, and respects the bound. -/
theorem C3_witness :
    (limitLT1 (some 0) = true ∧
      get_task_ins wStoreTwoAnon none (some 0) 7 = .error .assertionError) ∧
    (limitLT1 (some 1) = false ∧
      ∃ s', get_task_ins wStoreTwoAnon none (some 1) 7 =
        .ok ((takeLimit (some 1)
            (wStoreTwoAnon.task_ins_store.filter
              (fun kv => insMatches none kv.2))).map
          (fun kv => (kv.1, stampTask (isoformat 7) kv.2)), s')) := by
  constructor
  · exact ⟨by decide,
      (C3_get_task_ins_spec wStoreTwoAnon none (some 0) 7).1 (by decide)⟩
  · exact ⟨by decide,
      (C3_get_task_ins_spec wStoreTwoAnon none (some 1) 7).2.1 (by decide)⟩

/-- Membership of the set-add model. -/
theorem insertIdem_mem (x y : Nat) (l : List Nat) :
    y ∈ insertIdem x l ↔ y ∈ l ∨ y = x := by
  unfold insertIdem
  split
  · rename_i h
    constructor
    · exact Or.inl
    · rintro (h1 | rfl)
      · exact h1
      · exact h
  · simp [List.mem_append]

/-- The set-add model preserves distinctness. -/
theorem insertIdem_nodup (x : Nat) (l : List Nat) (h : l.Nodup) :
    (insertIdem x l).Nodup := by
  unfold insertIdem
  split
  · exact h
  · rename_i hx
    simp [List.nodup_append, h, hx]

/-- The inner delete_tasks scan succeeds when every scanned TaskRes has a
nonempty ancestry. -/
theorem scanOne_isSome (insId : Nat) :
    ∀ (resStore : List (Nat × TaskRes)) (acc : List Nat × List Nat),
      (∀ e ∈ resStore, e.2.task.ancestry ≠ []) →
      ∃ acc', scanOne insId resStore acc = some acc' := by
  intro resStore
  induction resStore with
  | nil => intro acc _; exact ⟨acc, rfl⟩
  | cons kv rest ih =>
    intro acc hanc
    obtain ⟨resId, r⟩ := kv
    obtain ⟨a, ha⟩ : ∃ a, r.task.ancestry.head? = some a := by
      cases hr : r.task.ancestry with
      | nil => exact absurd hr (hanc (resId, r) (List.mem_cons_self _ _))
      | cons b tl => exact ⟨b, by simp [hr]⟩
    have hrest : ∀ e ∈ rest, e.2.task.ancestry ≠ [] :=
      fun e he => hanc e (List.mem_cons_of_mem _ he)
    simp only [scanOne, ha]
    split
    · exact ih acc hrest
    · split
      · exact ih acc hrest
      · exact ih _ hrest

/-- Membership characterisation of the inner delete_tasks scan: the ins side
gains insId exactly when some delivered TaskRes answers it; the res side gains
exactly the keys of the delivered TaskRes answering insId. -/
theorem scanOne_mem (insId : Nat) :
    ∀ (resStore : List (Nat × TaskRes)) (acc acc' : List Nat × List Nat),
      scanOne insId resStore acc = some acc' →
      (∀ x, x ∈ acc'.1 ↔ x ∈ acc.1 ∨
        (x = insId ∧ hasDeliveredRes resStore insId)) ∧
      (∀ y, y ∈ acc'.2 ↔ y ∈ acc.2 ∨
        ∃ e ∈ resStore, e.1 = y ∧ e.2.task.ancestry.head? = some insId ∧
          e.2.task.delivered_at ≠ "") := by
  intro resStore
  induction resStore with
  | nil =>
    intro acc acc' h
    cases h
    simp [hasDeliveredRes]
  | cons kv rest ih =>
    intro acc acc' h
    obtain ⟨resId, r⟩ := kv
    cases ha : r.task.ancestry.head? with
    | none => simp only [scanOne, ha] at h; cases h
    | some a =>
      simp only [scanOne, ha] at h
      by_cases hne : a = insId
      · subst hne
        rw [if_neg (by simp)] at h
        by_cases hdel : r.task.delivered_at = ""
        · rw [if_pos (by simp [hdel])] at h
          obtain ⟨h1, h2⟩ := ih acc acc' h
          constructor
          · intro x
            rw [h1 x]
            simp only [hasDeliveredRes, List.mem_cons]
            constructor
            · rintro (hx | ⟨rfl, e, he, h3, h4⟩)
              · exact Or.inl hx
              · exact Or.inr ⟨rfl, e, Or.inr he, h3, h4⟩
            · rintro (hx | ⟨rfl, e, (rfl | he), h3, h4⟩)
              · exact Or.inl hx
              · exact absurd hdel h4
              · exact Or.inr ⟨rfl, e, he, h3, h4⟩
          · intro y
            rw [h2 y]
            simp only [List.mem_cons]
            constructor
            · rintro (hy | ⟨e, he, h3, h4, h5⟩)
              · exact Or.inl hy
              · exact Or.inr ⟨e, Or.inr he, h3, h4, h5⟩
            · rintro (hy | ⟨e, (rfl | he), h3, h4, h5⟩)
              · exact Or.inl hy
              · exact absurd hdel h5
              · exact Or.inr ⟨e, he, h3, h4, h5⟩
        · rw [if_neg (by simp [hdel])] at h
          obtain ⟨h1, h2⟩ := ih _ acc' h
          constructor
          · intro x
            rw [h1 x]
            simp only [insertIdem_mem, hasDeliveredRes, List.mem_cons]
            constructor
            · rintro ((hx | rfl) | ⟨rfl, e, he, h3, h4⟩)
              · exact Or.inl hx
              · exact Or.inr ⟨rfl, (resId, r), Or.inl rfl, ha, hdel⟩
              · exact Or.inr ⟨rfl, e, Or.inr he, h3, h4⟩
            · rintro (hx | ⟨rfl, e, (rfl | he), h3, h4⟩)
              · exact Or.inl (Or.inl hx)
              · exact Or.inl (Or.inr rfl)
              · exact Or.inr ⟨rfl, e, he, h3, h4⟩
          · intro y
            rw [h2 y]
            simp only [insertIdem_mem, List.mem_cons]
            constructor
            · rintro ((hy | rfl) | ⟨e, he, h3, h4, h5⟩)
              · exact Or.inl hy
              · exact Or.inr ⟨(y, r), Or.inl rfl, rfl, ha, hdel⟩
              · exact Or.inr ⟨e, Or.inr he, h3, h4, h5⟩
            · rintro (hy | ⟨e, (heq | he), h3, h4, h5⟩)
              · exact Or.inl (Or.inl hy)
              · subst heq; exact Or.inl (Or.inr h3.symm)
              · exact Or.inr ⟨e, he, h3, h4, h5⟩
      · rw [if_pos (by simp [hne])] at h
        obtain ⟨h1, h2⟩ := ih acc acc' h
        constructor
        · intro x
          rw [h1 x]
          simp only [hasDeliveredRes, List.mem_cons]
          constructor
          · rintro (hx | ⟨rfl, e, he, h3, h4⟩)
            · exact Or.inl hx
            · exact Or.inr ⟨rfl, e, Or.inr he, h3, h4⟩
          · rintro (hx | ⟨rfl, e, (rfl | he), h3, h4⟩)
            · exact Or.inl hx
            · exact absurd (Option.some.inj (ha.symm.trans h3)) hne
            · exact Or.inr ⟨rfl, e, he, h3, h4⟩
        · intro y
          rw [h2 y]
          simp only [List.mem_cons]
          constructor
          · rintro (hy | ⟨e, he, h3, h4, h5⟩)
            · exact Or.inl hy
            · exact Or.inr ⟨e, Or.inr he, h3, h4, h5⟩
          · rintro (hy | ⟨e, (rfl | he), h3, h4, h5⟩)
            · exact Or.inl hy
            · exact absurd (Option.some.inj (ha.symm.trans h4)) hne
            · exact Or.inr ⟨e, he, h3, h4, h5⟩

/-- The inner scan preserves distinctness of both accumulators. -/
theorem scanOne_nodup (insId : Nat) :
    ∀ (resStore : List (Nat × TaskRes)) (acc acc' : List Nat × List Nat),
      scanOne insId resStore acc = some acc' →
      acc.1.Nodup → acc.2.Nodup → acc'.1.Nodup ∧ acc'.2.Nodup := by
  intro resStore
  induction resStore with
  | nil =>
    intro acc acc' h h1 h2
    cases h
    exact ⟨h1, h2⟩
  | cons kv rest ih =>
    intro acc acc' h h1 h2
    obtain ⟨resId, r⟩ := kv
    cases ha : r.task.ancestry.head? with
    | none => simp only [scanOne, ha] at h; cases h
    | some a =>
      simp only [scanOne, ha] at h
      split at h
      · exact ih acc acc' h h1 h2
      · split at h
        · exact ih acc acc' h h1 h2
        · exact ih _ acc' h (insertIdem_nodup _ _ h1) (insertIdem_nodup _ _ h2)

/-- The outer delete_tasks scan succeeds when every stored TaskRes has a
nonempty ancestry. -/
theorem scanPairs_isSome (resStore : List (Nat × TaskRes))
    (hanc : ∀ e ∈ resStore, e.2.task.ancestry ≠ []) :
    ∀ (ids : List Nat) (acc : List Nat × List Nat),
      ∃ out, scanPairs resStore ids acc = some out := by
  intro ids
  induction ids with
  | nil => intro acc; exact ⟨acc, rfl⟩
  | cons i rest ih =>
    intro acc
    obtain ⟨acc1, h1⟩ := scanOne_isSome i resStore acc hanc
    obtain ⟨out, h2⟩ := ih acc1
    exact ⟨out, by unfold scanPairs; rw [h1]; exact h2⟩

/-- Membership characterisation of the outer delete_tasks scan. -/
theorem scanPairs_mem (resStore : List (Nat × TaskRes)) :
    ∀ (ids : List Nat) (acc : List Nat × List Nat)
      (out : List Nat × List Nat),
      scanPairs resStore ids acc = some out →
      (∀ x, x ∈ out.1 ↔ x ∈ acc.1 ∨
        (x ∈ ids ∧ hasDeliveredRes resStore x)) ∧
      (∀ y, y ∈ out.2 ↔ y ∈ acc.2 ∨ resSelected resStore ids y) := by
  intro ids
  induction ids with
  | nil =>
    intro acc out h
    cases h
    simp [resSelected]
  | cons i rest ih =>
    intro acc out h
    unfold scanPairs at h
    cases h1 : scanOne i resStore acc with
    | none => rw [h1] at h; cases h
    | some acc1 =>
      rw [h1] at h
      obtain ⟨s1, s2⟩ := scanOne_mem i resStore acc acc1 h1
      obtain ⟨p1, p2⟩ := ih acc1 out h
      constructor
      · intro x
        rw [p1 x, s1 x]
        constructor
        · rintro ((hx | ⟨rfl, hd⟩) | ⟨hr, hd⟩)
          · exact Or.inl hx
          · exact Or.inr ⟨List.mem_cons_self _ _, hd⟩
          · exact Or.inr ⟨List.mem_cons_of_mem _ hr, hd⟩
        · rintro (hx | ⟨hmem, hd⟩)
          · exact Or.inl (Or.inl hx)
          · rcases List.mem_cons.mp hmem with rfl | hr
            · exact Or.inl (Or.inr ⟨rfl, hd⟩)
            · exact Or.inr ⟨hr, hd⟩
      · intro y
        rw [p2 y, s2 y]
        simp only [resSelected, List.mem_cons]
        constructor
        · rintro ((hy | ⟨e, he, h3, h4, h5⟩) | ⟨e, he, h3, ⟨a, ha, h4⟩, h5⟩)
          · exact Or.inl hy
          · exact Or.inr ⟨e, he, h3, ⟨i, Or.inl rfl, h4⟩, h5⟩
          · exact Or.inr ⟨e, he, h3, ⟨a, Or.inr ha, h4⟩, h5⟩
        · rintro (hy | ⟨e, he, h3, ⟨a, (rfl | ha), h4⟩, h5⟩)
          · exact Or.inl (Or.inl hy)
          · exact Or.inl (Or.inr ⟨e, he, h3, h4, h5⟩)
          · exact Or.inr ⟨e, he, h3, ⟨a, ha, h4⟩, h5⟩

/-- The outer scan preserves distinctness of both accumulators. -/
theorem scanPairs_nodup (resStore : List (Nat × TaskRes)) :
    ∀ (ids : List Nat) (acc out : List Nat × List Nat),
      scanPairs resStore ids acc = some out →
      acc.1.Nodup → acc.2.Nodup → out.1.Nodup ∧ out.2.Nodup := by
  intro ids
  induction ids with
  | nil =>
    intro acc out h h1 h2
    cases h
    exact ⟨h1, h2⟩
  | cons i rest ih =>
    intro acc out h h1 h2
    unfold scanPairs at h
    cases hs : scanOne i resStore acc with
    | none => rw [hs] at h; cases h
    | some acc1 =>
      rw [hs] at h
      obtain ⟨n1, n2⟩ := scanOne_nodup i resStore acc acc1 hs h1 h2
      exact ih acc1 out h n1 n2

/-- Whatever the deletion loop leaves behind (on success or at the point of a
KeyError) is a sublist of the store it started from. -/
theorem delFold_sub :
    ∀ (dels : List Nat) (store out : List (Nat × TaskIns)),
      (delFold store dels = .ok out ∨ delFold store dels = .error out) →
      out.Sublist store := by
  intro dels
  induction dels with
  | nil =>
    intro store out h
    rcases h with h | h
    · cases h; exact List.Sublist.refl _
    · cases h
  | cons k rest ih =>
    intro store out h
    unfold delFold at h
    split at h
    · exact (ih _ out h).trans (List.filter_sublist _)
    · rcases h with h | h
      · cases h
      · cases h; exact List.Sublist.refl _

/-- A completed deletion loop removes exactly the entries whose key is among
the deleted ids. -/
theorem delFold_ok_eq :
    ∀ (dels : List Nat) (store out : List (Nat × TaskIns)),
      delFold store dels = .ok out →
      out = store.filter (fun kv => decide (kv.1 ∉ dels)) := by
  intro dels
  induction dels with
  | nil =>
    intro store out h
    cases h
    simp
  | cons k rest ih =>
    intro store out h
    unfold delFold at h
    split at h
    · rw [ih _ out h, List.filter_filter]
      apply List.filter_congr
      intro kv _
      by_cases h1 : kv.1 = k <;> by_cases h2 : kv.1 ∈ rest <;>
        simp [h1, h2, List.mem_cons]
    · cases h

/-- The deletion loop raises KeyError whenever one of the ids to delete has
no entry in the store. -/
theorem delFold_err :
    ∀ (dels : List Nat) (store : List (Nat × TaskIns)) (k : Nat),
      k ∈ dels → (∀ kv ∈ store, kv.1 ≠ k) →
      ∃ part, delFold store dels = .error part := by
  intro dels
  induction dels with
  | nil => intro store k hk; cases hk
  | cons d rest ih =>
    intro store k hk habs
    unfold delFold
    by_cases hp : store.any (fun kv => kv.1 == d) = true
    · rw [if_pos hp]
      rcases List.mem_cons.mp hk with rfl | hr
      · obtain ⟨kv, hkv, hbeq⟩ := List.any_eq_true.mp hp
        exact absurd (beq_iff_eq.mp hbeq) (habs kv hkv)
      · exact ih _ k hr (fun kv hkv =>
          habs kv (List.mem_of_mem_filter hkv))
    · rw [if_neg hp]
      exact ⟨store, rfl⟩

/-- Counterexample to claim C1: delete_tasks removes a TaskIns/TaskRes pair
even though the TaskIns's delivered_at is still the empty string — only the
TaskRes's delivered_at is consulted.  Concretely, with the undelivered TaskIns
under key 0 and the delivered TaskRes under key 1 answering it, the call
delete_tasks({0}) removes both. -/
theorem C1_counterexample :
    wIns.task.delivered_at = "" ∧
    delete_tasks wStoreUndeliveredIns [0] = .ok initState := by
  exact ⟨rfl, by decide⟩

/-- Claim C1 (amended): when delete_tasks returns normally, a TaskIns and the
delivered TaskRes answering it are removed together: the TaskIns under id is
removed exactly when id is in the argument set and some stored TaskRes with
ancestry head id has nonempty delivered_at (the TaskIns's own delivered_at is
not consulted), the TaskRes records removed are exactly the delivered ones
whose ancestry head is in the argument set, and all other entries — and the
rest of the state — are untouched. -/
theorem C1_delete_pairs_amended (s : StoreState) (ids : List Nat)
    (s' : StoreState) (h : delete_tasks s ids = .ok s') :
    s'.task_ins_store = s.task_ins_store.filter
      (fun kv => decide (¬(kv.1 ∈ ids ∧
        hasDeliveredRes s.task_res_store kv.1))) ∧
    s'.task_res_store = s.task_res_store.filter
      (fun kv => decide (¬ resSelected s.task_res_store ids kv.1)) ∧
    s'.node_ids = s.node_ids ∧ s'.run_ids = s.run_ids ∧
    s'.fresh = s.fresh := by
  unfold delete_tasks at h
  cases hscan : scanPairs s.task_res_store ids ([], []) with
  | none => simp only [hscan] at h; cases h
  | some acc =>
    simp only [hscan] at h
    cases hins : delFold s.task_ins_store acc.1 with
    | error part => simp only [hins] at h; cases h
    | ok ins' =>
      simp only [hins] at h
      cases hres : delFold s.task_res_store acc.2 with
      | error part => simp only [hres] at h; cases h
      | ok res' =>
        simp only [hres] at h
        injection h with h
        subst h
        obtain ⟨m1, m2⟩ := scanPairs_mem s.task_res_store ids ([], []) acc
          hscan
        refine ⟨?_, ?_, rfl, rfl, rfl⟩
        · rw [delFold_ok_eq acc.1 s.task_ins_store ins' hins]
          apply List.filter_congr
          intro kv _
          rw [decide_eq_decide]
          rw [m1 kv.1]
          simp only [List.not_mem_nil, false_or]
        · rw [delFold_ok_eq acc.2 s.task_res_store res' hres]
          apply List.filter_congr
          intro kv _
          rw [decide_eq_decide]
          rw [m2 kv.1]
          simp only [List.not_mem_nil, false_or]

/-- Witness for C1 (amended) on a fully delivered pair: delete_tasks({0})
returns normally and the resulting TaskIns store is the filtered one (here
empty, since the pair is removed). -/
theorem C1_witness :
    delete_tasks wStorePairDelivered [0] =
      .ok { initState with fresh := 2 } ∧
    ({ initState with fresh := 2 } : StoreState).task_ins_store =
      wStorePairDelivered.task_ins_store.filter
        (fun kv => decide (¬(kv.1 ∈ [0] ∧
          hasDeliveredRes wStorePairDelivered.task_res_store kv.1))) := by
  have h : delete_tasks wStorePairDelivered [0] =
      .ok { initState with fresh := 2 } := by decide
  exact ⟨h, (C1_delete_pairs_amended wStorePairDelivered [0] _ h).1⟩

/-- Claim C10: on a store whose TaskRes records all carry nonempty ancestry
(as admission guarantees), if some id in the argument set is answered by a
delivered TaskRes while no TaskIns is stored under that id (an orphan reply,
which store_task_res deliberately admits), delete_tasks raises KeyError
instead of completing: the TaskIns deletion is unguarded against a missing
key. -/
theorem C10_delete_orphan_raises (s : StoreState) (ids : List Nat) (i : Nat)
    (hanc : ∀ e ∈ s.task_res_store, e.2.task.ancestry ≠ [])
    (hi : i ∈ ids)
    (horph : hasDeliveredRes s.task_res_store i)
    (hno : ∀ kv ∈ s.task_ins_store, kv.1 ≠ i) :
    ∃ s', delete_tasks s ids = .error (.keyError, s') := by
  obtain ⟨acc, hscan⟩ := scanPairs_isSome s.task_res_store hanc ids ([], [])
  obtain ⟨m1, -⟩ := scanPairs_mem s.task_res_store ids ([], []) acc hscan
  have hiacc : i ∈ acc.1 := (m1 i).mpr (Or.inr ⟨hi, horph⟩)
  obtain ⟨part, herr⟩ := delFold_err acc.1 s.task_ins_store i hiacc hno
  refine ⟨{ s with task_ins_store := part }, ?_⟩
  unfold delete_tasks
  simp only [hscan, herr]

/-- Witness for C10 at the concrete orphan store: the TaskRes under key 1 is
delivered and answers task id 0, no TaskIns is stored under 0, and
delete_tasks({0}) raises KeyError. -/
theorem C10_witness :
    ((∀ e ∈ wStoreOrphan.task_res_store, e.2.task.ancestry ≠ []) ∧
      0 ∈ [0] ∧ hasDeliveredRes wStoreOrphan.task_res_store 0 ∧
      (∀ kv ∈ wStoreOrphan.task_ins_store, kv.1 ≠ 0)) ∧
    ∃ s', delete_tasks wStoreOrphan [0] = .error (.keyError, s') := by
  refine ⟨⟨by decide, by decide, by decide, by decide⟩, ?_⟩
  exact C10_delete_orphan_raises wStoreOrphan [0] 0 (by decide) (by decide)
    (by decide) (by decide)

/-- The modelled timestamp is never the empty string (delivered_at of a
stamped record is always nonempty). -/
theorem isoformat_ne_empty (t : Nat) : isoformat t ≠ "" := by
  intro h
  have h2 := congrArg String.data h
  simp only [isoformat] at h2
  cases h2

/-- A record selected by the get_task_ins filter is undelivered. -/
theorem insMatches_delivered (nodeId : Option Int) (t : TaskIns)
    (h : insMatches nodeId t = true) : t.task.delivered_at = "" := by
  unfold insMatches at h
  cases nodeId <;> simp_all

/-- Records selected by the get_task_ins scan come from the store and satisfy
the filter. -/
theorem insLoop_sel_sound (nodeId limit : Option Int) (ts : String) :
    ∀ (store : List (Nat × TaskIns)) (k : Nat) (x : Nat × TaskIns),
      x ∈ (getTaskInsLoop nodeId limit ts store k).1 →
      x ∈ store ∧ insMatches nodeId x.2 = true := by
  intro store
  induction store with
  | nil => intro k x hx; simp [getTaskInsLoop] at hx
  | cons kv rest ih =>
    intro k x hx
    obtain ⟨tid, t⟩ := kv
    cases hm : insMatches nodeId t with
    | false =>
      simp only [getTaskInsLoop, hm, Bool.false_eq_true, if_false] at hx
      obtain ⟨h1, h2⟩ := ih k x hx
      exact ⟨List.mem_cons_of_mem _ h1, h2⟩
    | true =>
      simp only [getTaskInsLoop, hm, if_true] at hx
      cases hh : limitHit limit (k + 1) with
      | true =>
        simp only [hh, if_true] at hx
        obtain rfl := List.eq_of_mem_singleton hx
        exact ⟨List.mem_cons_self _ _, hm⟩
      | false =>
        simp only [hh, Bool.false_eq_true, if_false] at hx
        rcases List.mem_cons.mp hx with rfl | hx'
        · exact ⟨List.mem_cons_self _ _, hm⟩
        · obtain ⟨h1, h2⟩ := ih (k + 1) x hx'
          exact ⟨List.mem_cons_of_mem _ h1, h2⟩

/-- Every record in the post-scan store is either an original record or a
stamped copy of one. -/
theorem insLoop_post_mem (nodeId limit : Option Int) (ts : String) :
    ∀ (store : List (Nat × TaskIns)) (k : Nat) (x : Nat × TaskIns),
      x ∈ (getTaskInsLoop nodeId limit ts store k).2 →
      x ∈ store ∨ ∃ y ∈ store, x = (y.1, stampTask ts y.2) := by
  intro store
  induction store with
  | nil => intro k x hx; simp [getTaskInsLoop] at hx
  | cons kv rest ih =>
    intro k x hx
    obtain ⟨tid, t⟩ := kv
    cases hm : insMatches nodeId t with
    | false =>
      simp only [getTaskInsLoop, hm, Bool.false_eq_true, if_false] at hx
      rcases List.mem_cons.mp hx with rfl | hx'
      · exact Or.inl (List.mem_cons_self _ _)
      · rcases ih k x hx' with h1 | ⟨y, hy, h2⟩
        · exact Or.inl (List.mem_cons_of_mem _ h1)
        · exact Or.inr ⟨y, List.mem_cons_of_mem _ hy, h2⟩
    | true =>
      simp only [getTaskInsLoop, hm, if_true] at hx
      cases hh : limitHit limit (k + 1) with
      | true =>
        simp only [hh, if_true] at hx
        rcases List.mem_cons.mp hx with rfl | hx'
        · exact Or.inr ⟨(tid, t), List.mem_cons_self _ _, rfl⟩
        · exact Or.inl (List.mem_cons_of_mem _ hx')
      | false =>
        simp only [hh, Bool.false_eq_true, if_false] at hx
        rcases List.mem_cons.mp hx with rfl | hx'
        · exact Or.inr ⟨(tid, t), List.mem_cons_self _ _, rfl⟩
        · rcases ih (k + 1) x hx' with h1 | ⟨y, hy, h2⟩
          · exact Or.inl (List.mem_cons_of_mem _ h1)
          · exact Or.inr ⟨y, List.mem_cons_of_mem _ hy, h2⟩

/-- The get_task_ins scan preserves the keys of the store, in order. -/
theorem insLoop_post_keys (nodeId limit : Option Int) (ts : String) :
    ∀ (store : List (Nat × TaskIns)) (k : Nat),
      (getTaskInsLoop nodeId limit ts store k).2.map (fun kv => kv.1)
        = store.map (fun kv => kv.1) := by
  intro store
  induction store with
  | nil => intro k; rfl
  | cons kv rest ih =>
    intro k
    obtain ⟨tid, t⟩ := kv
    cases hm : insMatches nodeId t with
    | false => simp [getTaskInsLoop, hm, ih k]
    | true =>
      cases hh : limitHit limit (k + 1) with
      | true => simp [getTaskInsLoop, hm, hh]
      | false => simp [getTaskInsLoop, hm, hh, ih (k + 1)]

/-- In a store with distinct keys, each record left under a selected key after
the get_task_ins scan carries the stamp. -/
theorem insLoop_post_stamped (nodeId limit : Option Int) (ts : String) :
    ∀ (store : List (Nat × TaskIns)) (k : Nat) (j : Nat) (r : TaskIns),
      (store.map (fun kv => kv.1)).Nodup →
      j ∈ (getTaskInsLoop nodeId limit ts store k).1.map (fun kv => kv.1) →
      (j, r) ∈ (getTaskInsLoop nodeId limit ts store k).2 →
      r.task.delivered_at = ts := by
  intro store
  induction store with
  | nil => intro k j r _ hsel _; simp [getTaskInsLoop] at hsel
  | cons kv rest ih =>
    intro k j r hnd hsel hpost
    obtain ⟨tid, t⟩ := kv
    have hnd2 : tid ∉ rest.map (fun kv => kv.1) ∧
        (rest.map (fun kv => kv.1)).Nodup := by
      rw [List.map_cons] at hnd
      exact List.nodup_cons.mp hnd
    cases hm : insMatches nodeId t with
    | false =>
      simp only [getTaskInsLoop, hm, Bool.false_eq_true, if_false] at hsel hpost
      have hjrest : j ∈ rest.map (fun kv => kv.1) := by
        obtain ⟨y, hy, rfl⟩ := List.mem_map.mp hsel
        exact List.mem_map.mpr ⟨y, (insLoop_sel_sound nodeId limit ts
          rest k y hy).1, rfl⟩
      rcases List.mem_cons.mp hpost with heq | hpost'
      · obtain rfl : j = tid := congrArg Prod.fst heq
        exact absurd hjrest hnd2.1
      · exact ih k j r hnd2.2 hsel hpost'
    | true =>
      simp only [getTaskInsLoop, hm, if_true] at hsel hpost
      cases hh : limitHit limit (k + 1) with
      | true =>
        simp only [hh, if_true] at hsel hpost

        obtain rfl : j = tid := by simpa using hsel
        rcases List.mem_cons.mp hpost with heq | hpost'
        · have : r = stampTask ts t := congrArg Prod.snd heq
          rw [this]
          rfl
        · have : j ∈ rest.map (fun kv => kv.1) :=
            List.mem_map.mpr ⟨(j, r), hpost', rfl⟩
          exact absurd this hnd2.1
      | false =>
        simp only [hh, Bool.false_eq_true, if_false] at hsel hpost
        rcases List.mem_cons.mp hpost with heq | hpost'
        · have : r = stampTask ts t := congrArg Prod.snd heq
          rw [this]
          rfl
        · have hjrest : j ∈ rest.map (fun kv => kv.1) := by
            have := insLoop_post_keys nodeId limit ts rest (k + 1)
            rw [← this]
            exact List.mem_map.mpr ⟨(j, r), hpost', rfl⟩
          have hsel2 : j = tid ∨
              ∃ x, (j, x) ∈ (getTaskInsLoop nodeId limit ts rest (k + 1)).1 := by
            simpa using hsel
          rcases hsel2 with rfl | ⟨x, hx⟩
          · exact absurd hjrest hnd2.1
          · exact ih (k + 1) j r hnd2.2
              (List.mem_map.mpr ⟨(j, x), hx, rfl⟩) hpost'

/-- Records selected by the get_task_res scan come from the store and are
undelivered. -/
theorem resLoop_sel_sound (ids : List Nat) (limit : Option Int) (ts : String) :
    ∀ (store : List (Nat × TaskRes)) (k : Nat)
      (p : List (Nat × TaskRes) × List (Nat × TaskRes)),
      getTaskResLoop ids limit ts store k = some p →
      ∀ x ∈ p.1, x ∈ store ∧ x.2.task.delivered_at = "" := by
  intro store
  induction store with
  | nil =>
    intro k p h x hx
    cases h
    simp at hx
  | cons kv rest ih =>
    intro k p h x hx
    obtain ⟨tid, t⟩ := kv
    cases ha : t.task.ancestry.head? with
    | none => simp only [getTaskResLoop, ha] at h; cases h
    | some a =>
      simp only [getTaskResLoop, ha] at h
      cases hc : (ids.contains a && (t.task.delivered_at == "")) with
      | false =>
        rw [hc] at h
        simp only [Bool.false_eq_true, if_false] at h
        cases hr : getTaskResLoop ids limit ts rest k with
        | none => rw [hr] at h; cases h
        | some q =>
          rw [hr] at h
          cases h
          rcases ih k q hr x hx with ⟨h1, h2⟩
          exact ⟨List.mem_cons_of_mem _ h1, h2⟩
      | true =>
        rw [hc] at h
        have hdel : t.task.delivered_at = "" := by
          have := (Bool.and_eq_true _ _).mp hc
          exact beq_iff_eq.mp this.2
        simp only [if_true] at h
        cases hh : limitHit limit (k + 1) with
        | true =>
          rw [hh] at h
          simp only [if_true] at h
          cases h
          obtain rfl := List.eq_of_mem_singleton hx
          exact ⟨List.mem_cons_self _ _, hdel⟩
        | false =>
          rw [hh] at h
          simp only [Bool.false_eq_true, if_false] at h
          cases hr : getTaskResLoop ids limit ts rest (k + 1) with
          | none => rw [hr] at h; cases h
          | some q =>
            rw [hr] at h
            cases h
            rcases List.mem_cons.mp hx with rfl | hx'
            · exact ⟨List.mem_cons_self _ _, hdel⟩
            · rcases ih (k + 1) q hr x hx' with ⟨h1, h2⟩
              exact ⟨List.mem_cons_of_mem _ h1, h2⟩

/-- Every record in the post-scan TaskRes store is an original record or a
stamped copy of one. -/
theorem resLoop_post_mem (ids : List Nat) (limit : Option Int) (ts : String) :
    ∀ (store : List (Nat × TaskRes)) (k : Nat)
      (p : List (Nat × TaskRes) × List (Nat × TaskRes)),
      getTaskResLoop ids limit ts store k = some p →
      ∀ x ∈ p.2, x ∈ store ∨ ∃ y ∈ store, x = (y.1, stampTask ts y.2) := by
  intro store
  induction store with
  | nil =>
    intro k p h x hx
    cases h
    simp at hx
  | cons kv rest ih =>
    intro k p h x hx
    obtain ⟨tid, t⟩ := kv
    cases ha : t.task.ancestry.head? with
    | none => simp only [getTaskResLoop, ha] at h; cases h
    | some a =>
      simp only [getTaskResLoop, ha] at h
      cases hc : (ids.contains a && (t.task.delivered_at == "")) with
      | false =>
        rw [hc] at h
        simp only [Bool.false_eq_true, if_false] at h
        cases hr : getTaskResLoop ids limit ts rest k with
        | none => rw [hr] at h; cases h
        | some q =>
          rw [hr] at h
          cases h
          rcases List.mem_cons.mp hx with rfl | hx'
          · exact Or.inl (List.mem_cons_self _ _)
          · rcases ih k q hr x hx' with h1 | ⟨y, hy, h2⟩
            · exact Or.inl (List.mem_cons_of_mem _ h1)
            · exact Or.inr ⟨y, List.mem_cons_of_mem _ hy, h2⟩
      | true =>
        rw [hc] at h
        simp only [if_true] at h
        cases hh : limitHit limit (k + 1) with
        | true =>
          rw [hh] at h
          simp only [if_true] at h
          cases h
          rcases List.mem_cons.mp hx with rfl | hx'
          · exact Or.inr ⟨(tid, t), List.mem_cons_self _ _, rfl⟩
          · exact Or.inl (List.mem_cons_of_mem _ hx')
        | false =>
          rw [hh] at h
          simp only [Bool.false_eq_true, if_false] at h
          cases hr : getTaskResLoop ids limit ts rest (k + 1) with
          | none => rw [hr] at h; cases h
          | some q =>
            rw [hr] at h
            cases h
            rcases List.mem_cons.mp hx with rfl | hx'
            · exact Or.inr ⟨(tid, t), List.mem_cons_self _ _, rfl⟩
            · rcases ih (k + 1) q hr x hx' with h1 | ⟨y, hy, h2⟩
              · exact Or.inl (List.mem_cons_of_mem _ h1)
              · exact Or.inr ⟨y, List.mem_cons_of_mem _ hy, h2⟩

/-- The get_task_res scan preserves the keys of the store, in order. -/
theorem resLoop_post_keys (ids : List Nat) (limit : Option Int) (ts : String) :
    ∀ (store : List (Nat × TaskRes)) (k : Nat)
      (p : List (Nat × TaskRes) × List (Nat × TaskRes)),
      getTaskResLoop ids limit ts store k = some p →
      p.2.map (fun kv => kv.1) = store.map (fun kv => kv.1) := by
  intro store
  induction store with
  | nil =>
    intro k p h
    cases h
    rfl
  | cons kv rest ih =>
    intro k p h
    obtain ⟨tid, t⟩ := kv
    cases ha : t.task.ancestry.head? with
    | none => simp only [getTaskResLoop, ha] at h; cases h
    | some a =>
      simp only [getTaskResLoop, ha] at h
      cases hc : (ids.contains a && (t.task.delivered_at == "")) with
      | false =>
        rw [hc] at h
        simp only [Bool.false_eq_true, if_false] at h
        cases hr : getTaskResLoop ids limit ts rest k with
        | none => rw [hr] at h; cases h
        | some q =>
          rw [hr] at h
          cases h
          simp [ih k q hr]
      | true =>
        rw [hc] at h
        simp only [if_true] at h
        cases hh : limitHit limit (k + 1) with
        | true =>
          rw [hh] at h
          simp only [if_true] at h
          cases h
          simp
        | false =>
          rw [hh] at h
          simp only [Bool.false_eq_true, if_false] at h
          cases hr : getTaskResLoop ids limit ts rest (k + 1) with
          | none => rw [hr] at h; cases h
          | some q =>
            rw [hr] at h
            cases h
            simp [ih (k + 1) q hr]

/-- In a store with distinct keys, each record left under a selected key after
the get_task_res scan carries the stamp. -/
theorem resLoop_post_stamped (ids : List Nat) (limit : Option Int)
    (ts : String) :
    ∀ (store : List (Nat × TaskRes)) (k : Nat)
      (p : List (Nat × TaskRes) × List (Nat × TaskRes)),
      getTaskResLoop ids limit ts store k = some p →
      ∀ (j : Nat) (r : TaskRes),
        (store.map (fun kv => kv.1)).Nodup →
        j ∈ p.1.map (fun kv => kv.1) →
        (j, r) ∈ p.2 →
        r.task.delivered_at = ts := by
  intro store
  induction store with
  | nil =>
    intro k p h j r _ hsel _
    cases h
    simp at hsel
  | cons kv rest ih =>
    intro k p h j r hnd hsel hpost
    obtain ⟨tid, t⟩ := kv
    have hnd2 : tid ∉ rest.map (fun kv => kv.1) ∧
        (rest.map (fun kv => kv.1)).Nodup := by
      rw [List.map_cons] at hnd
      exact List.nodup_cons.mp hnd
    cases ha : t.task.ancestry.head? with
    | none => simp only [getTaskResLoop, ha] at h; cases h
    | some a =>
      simp only [getTaskResLoop, ha] at h
      cases hc : (ids.contains a && (t.task.delivered_at == "")) with
      | false =>
        rw [hc] at h
        simp only [Bool.false_eq_true, if_false] at h
        cases hr : getTaskResLoop ids limit ts rest k with
        | none => rw [hr] at h; cases h
        | some q =>
          rw [hr] at h
          cases h
          have hjrest : j ∈ rest.map (fun kv => kv.1) := by
            obtain ⟨y, hy, rfl⟩ := List.mem_map.mp hsel
            exact List.mem_map.mpr
              ⟨y, (resLoop_sel_sound ids limit ts rest k q hr y hy).1, rfl⟩
          rcases List.mem_cons.mp hpost with heq | hpost'
          · obtain rfl : j = tid := congrArg Prod.fst heq
            exact absurd hjrest hnd2.1
          · exact ih k q hr j r hnd2.2 hsel hpost'
      | true =>
        rw [hc] at h
        simp only [if_true] at h
        cases hh : limitHit limit (k + 1) with
        | true =>
          rw [hh] at h
          simp only [if_true] at h
          cases h
          rcases List.mem_cons.mp hpost with heq | hpost'
          · have : r = stampTask ts t := congrArg Prod.snd heq
            rw [this]
            rfl
          · obtain rfl : j = tid := by simpa using hsel
            have : j ∈ rest.map (fun kv => kv.1) :=
              List.mem_map.mpr ⟨(j, r), hpost', rfl⟩
            exact absurd this hnd2.1
        | false =>
          rw [hh] at h
          simp only [Bool.false_eq_true, if_false] at h
          cases hr : getTaskResLoop ids limit ts rest (k + 1) with
          | none => rw [hr] at h; cases h
          | some q =>
            rw [hr] at h
            cases h
            rcases List.mem_cons.mp hpost with heq | hpost'
            · have : r = stampTask ts t := congrArg Prod.snd heq
              rw [this]
              rfl
            · have hjrest : j ∈ rest.map (fun kv => kv.1) := by
                rw [← resLoop_post_keys ids limit ts rest (k + 1) q hr]
                exact List.mem_map.mpr ⟨(j, r), hpost', rfl⟩
              have hsel2 : j = tid ∨ ∃ x, (j, x) ∈ q.1 := by
                simpa using hsel
              rcases hsel2 with rfl | ⟨x, hx⟩
              · exact absurd hjrest hnd2.1
              · exact ih (k + 1) q hr j r hnd2.2
                  (List.mem_map.mpr ⟨(j, x), hx, rfl⟩) hpost'

/-- What a successful get_task_ins returns and leaves behind. -/
theorem get_task_ins_ok (s : StoreState) (nid limit : Option Int) (t : Nat)
    (p : List (Nat × TaskIns) × StoreState)
    (h : get_task_ins s nid limit t = .ok p) :
    p.1 = (getTaskInsLoop nid limit (isoformat t) s.task_ins_store 0).1.map
      (fun kv => (kv.1, stampTask (isoformat t) kv.2)) ∧
    p.2.task_ins_store =
      (getTaskInsLoop nid limit (isoformat t) s.task_ins_store 0).2 ∧
    p.2.task_res_store = s.task_res_store ∧
    p.2.node_ids = s.node_ids ∧ p.2.run_ids = s.run_ids ∧
    p.2.fresh = s.fresh := by
  unfold get_task_ins at h
  split at h
  · cases h
  · rw [← Except.ok.inj h]
    exact ⟨rfl, rfl, rfl, rfl, rfl, rfl⟩

/-- What a successful get_task_res returns and leaves behind. -/
theorem get_task_res_ok (s : StoreState) (ids : List Nat) (limit : Option Int)
    (t : Nat) (p : List (Nat × TaskRes) × StoreState)
    (h : get_task_res s ids limit t = .ok p) :
    ∃ q, getTaskResLoop ids limit (isoformat t) s.task_res_store 0 = some q ∧
      p.1 = q.1.map (fun kv => (kv.1, stampTask (isoformat t) kv.2)) ∧
      p.2.task_res_store = q.2 ∧
      p.2.task_ins_store = s.task_ins_store ∧
      p.2.node_ids = s.node_ids ∧ p.2.run_ids = s.run_ids ∧
      p.2.fresh = s.fresh := by
  unfold get_task_res at h
  split at h
  · cases h
  · cases hq : getTaskResLoop ids limit (isoformat t) s.task_res_store 0 with
    | none => simp only [hq] at h; cases h
    | some q =>
      simp only [hq] at h
      refine ⟨q, rfl, ?_⟩
      rw [← Except.ok.inj h]
      exact ⟨rfl, rfl, rfl, rfl, rfl, rfl⟩

/-- The state left by delete_tasks, on normal return or at a raise, keeps the
registry, runs and fresh counter, and its task stores are sublists of the
originals. -/
theorem delete_tasks_state (s : StoreState) (ids : List Nat) (s' : StoreState)
    (h : delete_tasks s ids = .ok s' ∨
      ∃ e, delete_tasks s ids = .error (e, s')) :
    s'.node_ids = s.node_ids ∧ s'.run_ids = s.run_ids ∧ s'.fresh = s.fresh ∧
    s'.task_ins_store.Sublist s.task_ins_store ∧
    s'.task_res_store.Sublist s.task_res_store := by
  unfold delete_tasks at h
  cases hscan : scanPairs s.task_res_store ids ([], []) with
  | none =>
    simp only [hscan] at h
    rcases h with h | ⟨e, h⟩
    · cases h
    · obtain rfl : s = s' := congrArg Prod.snd (Except.error.inj h)
      exact ⟨rfl, rfl, rfl, List.Sublist.refl _, List.Sublist.refl _⟩
  | some acc =>
    simp only [hscan] at h
    cases hins : delFold s.task_ins_store acc.1 with
    | error part =>
      simp only [hins] at h
      rcases h with h | ⟨e, h⟩
      · cases h
      · obtain rfl := congrArg Prod.snd (Except.error.inj h)
        exact ⟨rfl, rfl, rfl,
          delFold_sub acc.1 s.task_ins_store part (Or.inr hins),
          List.Sublist.refl _⟩
    | ok ins' =>
      simp only [hins] at h
      cases hres : delFold s.task_res_store acc.2 with
      | error part =>
        simp only [hres] at h
        rcases h with h | ⟨e, h⟩
        · cases h
        · obtain rfl := congrArg Prod.snd (Except.error.inj h)
          exact ⟨rfl, rfl, rfl,
            delFold_sub acc.1 s.task_ins_store ins' (Or.inl hins),
            delFold_sub acc.2 s.task_res_store part (Or.inr hres)⟩
      | ok res' =>
        simp only [hres] at h
        rcases h with h | ⟨e, h⟩
        · obtain rfl := Except.ok.inj h
          exact ⟨rfl, rfl, rfl,
            delFold_sub acc.1 s.task_ins_store ins' (Or.inl hins),
            delFold_sub acc.2 s.task_res_store res' (Or.inl hres)⟩
        · cases h

/-- One step never lowers the fresh counter, and every record in a
post-step task store is an original record, a record stored under the minted
key, or a record with nonempty delivered_at. -/
theorem step_char (s : StoreState) (op : Op) :
    s.fresh ≤ (step s op).fresh ∧
    (∀ x ∈ (step s op).task_ins_store,
      x ∈ s.task_ins_store ∨ x.1 = s.fresh ∨ x.2.task.delivered_at ≠ "") ∧
    (∀ x ∈ (step s op).task_res_store,
      x ∈ s.task_res_store ∨ x.1 = s.fresh ∨ x.2.task.delivered_at ≠ "") := by
  cases op with
  | storeTaskIns t =>
    simp only [step]
    unfold store_task_ins
    split
    · exact ⟨le_rfl, fun x hx => Or.inl hx, fun x hx => Or.inl hx⟩
    · split
      · exact ⟨le_rfl, fun x hx => Or.inl hx, fun x hx => Or.inl hx⟩
      · refine ⟨Nat.le_succ _, ?_, fun x hx => Or.inl hx⟩
        intro x hx
        rcases List.mem_append.mp hx with h1 | h1
        · exact Or.inl h1
        · obtain rfl := List.eq_of_mem_singleton h1
          exact Or.inr (Or.inl rfl)
  | storeTaskRes t =>
    simp only [step]
    unfold store_task_res
    split
    · exact ⟨le_rfl, fun x hx => Or.inl hx, fun x hx => Or.inl hx⟩
    · split
      · exact ⟨le_rfl, fun x hx => Or.inl hx, fun x hx => Or.inl hx⟩
      · refine ⟨Nat.le_succ _, fun x hx => Or.inl hx, ?_⟩
        intro x hx
        rcases List.mem_append.mp hx with h1 | h1
        · exact Or.inl h1
        · obtain rfl := List.eq_of_mem_singleton h1
          exact Or.inr (Or.inl rfl)
  | getTaskIns nid lim t =>
    simp only [step]
    cases hg : get_task_ins s nid lim t with
    | error e => exact ⟨le_rfl, fun x hx => Or.inl hx, fun x hx => Or.inl hx⟩
    | ok p =>
      obtain ⟨-, hins, hres, -, -, hfresh⟩ := get_task_ins_ok s nid lim t p hg
      refine ⟨le_of_eq hfresh.symm, ?_, ?_⟩
      · intro x hx
        have hx2 : x ∈ p.2.task_ins_store := hx
        rw [hins] at hx2
        rcases insLoop_post_mem nid lim (isoformat t) s.task_ins_store 0 x
          hx2 with h1 | ⟨y, hy, rfl⟩
        · exact Or.inl h1
        · exact Or.inr (Or.inr (isoformat_ne_empty t))
      · intro x hx
        have hx2 : x ∈ p.2.task_res_store := hx
        rw [hres] at hx2
        exact Or.inl hx2
  | getTaskRes ids lim t =>
    simp only [step]
    cases hg : get_task_res s ids lim t with
    | error e => exact ⟨le_rfl, fun x hx => Or.inl hx, fun x hx => Or.inl hx⟩
    | ok p =>
      obtain ⟨q, hq, -, hres, hins, -, -, hfresh⟩ :=
        get_task_res_ok s ids lim t p hg
      refine ⟨le_of_eq hfresh.symm, ?_, ?_⟩
      · intro x hx
        have hx2 : x ∈ p.2.task_ins_store := hx
        rw [hins] at hx2
        exact Or.inl hx2
      · intro x hx
        have hx2 : x ∈ p.2.task_res_store := hx
        rw [hres] at hx2
        rcases resLoop_post_mem ids lim (isoformat t) s.task_res_store 0 q
          hq x hx2 with h1 | ⟨y, hy, rfl⟩
        · exact Or.inl h1
        · exact Or.inr (Or.inr (isoformat_ne_empty t))
  | deleteTasks ids =>
    simp only [step]
    cases hg : delete_tasks s ids with
    | ok s' =>
      obtain ⟨-, -, hfresh, hi, hr⟩ := delete_tasks_state s ids s' (Or.inl hg)
      exact ⟨le_of_eq hfresh.symm,
        fun x hx => Or.inl (hi.subset hx),
        fun x hx => Or.inl (hr.subset hx)⟩
    | error e =>
      obtain ⟨e1, e2⟩ := e
      obtain ⟨-, -, hfresh, hi, hr⟩ :=
        delete_tasks_state s ids e2 (Or.inr ⟨e1, hg⟩)
      exact ⟨le_of_eq hfresh.symm,
        fun x hx => Or.inl (hi.subset hx),
        fun x hx => Or.inl (hr.subset hx)⟩
  | createNode r t =>
    simp only [step]
    unfold create_node
    split
    · exact ⟨le_rfl, fun x hx => Or.inl hx, fun x hx => Or.inl hx⟩
    · exact ⟨le_rfl, fun x hx => Or.inl hx, fun x hx => Or.inl hx⟩
  | deleteNode nid =>
    simp only [step]
    cases hg : delete_node s nid with
    | ok s' =>
      unfold delete_node at hg
      split at hg
      · cases hg
      · rw [← Except.ok.inj hg]
        exact ⟨le_rfl, fun x hx => Or.inl hx, fun x hx => Or.inl hx⟩
    | error e => exact ⟨le_rfl, fun x hx => Or.inl hx, fun x hx => Or.inl hx⟩
  | getNodes rid t =>
    exact ⟨le_rfl, fun x hx => Or.inl hx, fun x hx => Or.inl hx⟩
  | createRun r =>
    simp only [step]
    unfold create_run
    split
    · exact ⟨le_rfl, fun x hx => Or.inl hx, fun x hx => Or.inl hx⟩
    · exact ⟨le_rfl, fun x hx => Or.inl hx, fun x hx => Or.inl hx⟩
  | acknowledgePing nid ping t =>
    simp only [step]
    unfold acknowledge_ping
    split
    · exact ⟨le_rfl, fun x hx => Or.inl hx, fun x hx => Or.inl hx⟩
    · exact ⟨le_rfl, fun x hx => Or.inl hx, fun x hx => Or.inl hx⟩

/-- SafeAt is stable under every store operation: a spent key stays spent and
its records stay stamped. -/
theorem safeAt_step (s : StoreState) (op : Op) (i : Nat) (h : SafeAt s i) :
    SafeAt (step s op) i := by
  obtain ⟨hlt, hsi, hsr⟩ := h
  obtain ⟨hf, hci, hcr⟩ := step_char s op
  refine ⟨lt_of_lt_of_le hlt hf, ?_, ?_⟩
  · intro r hr
    rcases hci (i, r) hr with h1 | h1 | h1
    · exact hsi r h1
    · exact absurd h1 (by simp only []; omega)
    · exact h1
  · intro r hr
    rcases hcr (i, r) hr with h1 | h1 | h1
    · exact hsr r h1
    · exact absurd h1 (by simp only []; omega)
    · exact h1

/-- Every key a get operation hands out belongs to an undelivered record of
the pre-call store. -/
theorem getOut_sound (s : StoreState) (op : Op) (i : Nat)
    (h : i ∈ getOut s op) :
    (∃ r, (i, r) ∈ s.task_ins_store ∧ r.task.delivered_at = "") ∨
    (∃ r, (i, r) ∈ s.task_res_store ∧ r.task.delivered_at = "") := by
  cases op with
  | getTaskIns nid lim t =>
    simp only [getOut] at h
    cases hg : get_task_ins s nid lim t with
    | error e => simp only [hg] at h; cases h
    | ok p =>
      simp only [hg] at h
      obtain ⟨hp1, -, -, -, -, -⟩ := get_task_ins_ok s nid lim t p hg
      rw [hp1] at h
      simp only [List.map_map, List.mem_map, Function.comp] at h
      obtain ⟨y, hy, rfl⟩ := h
      obtain ⟨hmem, hmatch⟩ :=
        insLoop_sel_sound nid lim (isoformat t) s.task_ins_store 0 y hy
      refine Or.inl ⟨y.2, ?_, insMatches_delivered nid y.2 hmatch⟩
      show (y.1, y.2) ∈ s.task_ins_store
      rw [Prod.mk.eta]
      exact hmem
  | getTaskRes ids lim t =>
    simp only [getOut] at h
    cases hg : get_task_res s ids lim t with
    | error e => simp only [hg] at h; cases h
    | ok p =>
      simp only [hg] at h
      obtain ⟨q, hq, hp1, -, -, -, -, -⟩ := get_task_res_ok s ids lim t p hg
      rw [hp1] at h
      simp only [List.map_map, List.mem_map, Function.comp] at h
      obtain ⟨y, hy, rfl⟩ := h
      obtain ⟨hmem, hdel⟩ :=
        resLoop_sel_sound ids lim (isoformat t) s.task_res_store 0 q hq y hy
      refine Or.inr ⟨y.2, ?_, hdel⟩
      show (y.1, y.2) ∈ s.task_res_store
      rw [Prod.mk.eta]
      exact hmem
  | storeTaskIns t => cases h
  | storeTaskRes t => cases h
  | deleteTasks ids => cases h
  | createNode r t => cases h
  | deleteNode nid => cases h
  | getNodes rid t => cases h
  | createRun r => cases h
  | acknowledgePing nid ping t => cases h

/-- A key whose records are all stamped is never handed out by a get. -/
theorem stampedAt_not_out (s : StoreState) (op : Op) (i : Nat)
    (hst : StampedAt s i) : i ∉ getOut s op := by
  intro h
  rcases getOut_sound s op i h with ⟨r, hr, hdel⟩ | ⟨r, hr, hdel⟩
  · exact hst.1 r hr hdel
  · exact hst.2 r hr hdel

/-- KeysOk transports along equal keys and fresh counter. -/
theorem keysOk_of_eq (s s' : StoreState) (h : KeysOk s)
    (hi : insKeys s' = insKeys s) (hr : resKeys s' = resKeys s)
    (hf : s'.fresh = s.fresh) : KeysOk s' := by
  obtain ⟨nd1, nd2, dis, b1, b2⟩ := h
  refine ⟨?_, ?_, ?_, ?_, ?_⟩
  · rw [hi]; exact nd1
  · rw [hr]; exact nd2
  · intro k hk
    rw [hr]
    rw [hi] at hk
    exact dis k hk
  · intro k hk
    rw [hf]
    rw [hi] at hk
    exact b1 k hk
  · intro k hk
    rw [hf]
    rw [hr] at hk
    exact b2 k hk

/-- KeysOk survives shrinking the task stores. -/
theorem keysOk_of_sub (s s' : StoreState) (h : KeysOk s)
    (hi : s'.task_ins_store.Sublist s.task_ins_store)
    (hr : s'.task_res_store.Sublist s.task_res_store)
    (hf : s'.fresh = s.fresh) : KeysOk s' := by
  obtain ⟨nd1, nd2, dis, b1, b2⟩ := h
  have hi' : (insKeys s').Sublist (insKeys s) := hi.map _
  have hr' : (resKeys s').Sublist (resKeys s) := hr.map _
  refine ⟨List.Nodup.sublist hi' nd1, List.Nodup.sublist hr' nd2, ?_, ?_, ?_⟩
  · intro k hk hk2
    exact dis k (hi'.subset hk) (hr'.subset hk2)
  · intro k hk
    rw [hf]
    exact b1 k (hi'.subset hk)
  · intro k hk
    rw [hf]
    exact b2 k (hr'.subset hk)

/-- KeysOk is preserved by inserting a record under the minted key in the
TaskIns store. -/
theorem keysOk_insert_ins (s : StoreState) (t' : TaskIns) (h : KeysOk s) :
    KeysOk
      { node_ids := s.node_ids, run_ids := s.run_ids,
        task_ins_store := s.task_ins_store ++ [(s.fresh, t')],
        task_res_store := s.task_res_store,
        fresh := s.fresh + 1 } := by
  obtain ⟨nd1, nd2, dis, b1, b2⟩ := h
  have hfi : s.fresh ∉ insKeys s := fun hm => lt_irrefl _ (b1 _ hm)
  have hfr : s.fresh ∉ resKeys s := fun hm => lt_irrefl _ (b2 _ hm)
  have hkeys : insKeys
      { node_ids := s.node_ids, run_ids := s.run_ids,
        task_ins_store := s.task_ins_store ++ [(s.fresh, t')],
        task_res_store := s.task_res_store,
        fresh := s.fresh + 1 } = insKeys s ++ [s.fresh] := by
    simp [insKeys]
  refine ⟨?_, nd2, ?_, ?_, ?_⟩
  · rw [hkeys, List.nodup_append]
    exact ⟨nd1, List.nodup_singleton _,
      fun a ha hb => hfi (List.mem_singleton.mp hb ▸ ha)⟩
  · intro k hk
    rw [hkeys] at hk
    rcases List.mem_append.mp hk with h1 | h1
    · exact dis k h1
    · obtain rfl := List.mem_singleton.mp h1
      exact hfr
  · intro k hk
    rw [hkeys] at hk
    rcases List.mem_append.mp hk with h1 | h1
    · exact Nat.lt_succ_of_lt (b1 k h1)
    · obtain rfl := List.mem_singleton.mp h1
      exact Nat.lt_succ_self _
  · intro k hk
    exact Nat.lt_succ_of_lt (b2 k hk)

/-- KeysOk is preserved by inserting a record under the minted key in the
TaskRes store. -/
theorem keysOk_insert_res (s : StoreState) (t' : TaskRes) (h : KeysOk s) :
    KeysOk
      { node_ids := s.node_ids, run_ids := s.run_ids,
        task_ins_store := s.task_ins_store,
        task_res_store := s.task_res_store ++ [(s.fresh, t')],
        fresh := s.fresh + 1 } := by
  obtain ⟨nd1, nd2, dis, b1, b2⟩ := h
  have hfi : s.fresh ∉ insKeys s := fun hm => lt_irrefl _ (b1 _ hm)
  have hfr : s.fresh ∉ resKeys s := fun hm => lt_irrefl _ (b2 _ hm)
  have hkeys : resKeys
      { node_ids := s.node_ids, run_ids := s.run_ids,
        task_ins_store := s.task_ins_store,
        task_res_store := s.task_res_store ++ [(s.fresh, t')],
        fresh := s.fresh + 1 } = resKeys s ++ [s.fresh] := by
    simp [resKeys]
  refine ⟨nd1, ?_, ?_, ?_, ?_⟩
  · rw [hkeys, List.nodup_append]
    exact ⟨nd2, List.nodup_singleton _,
      fun a ha hb => hfr (List.mem_singleton.mp hb ▸ ha)⟩
  · intro k hk hk2
    rw [hkeys] at hk2
    rcases List.mem_append.mp hk2 with h1 | h1
    · exact dis k hk h1
    · obtain rfl := List.mem_singleton.mp h1
      exact hfi hk
  · intro k hk
    exact Nat.lt_succ_of_lt (b1 k hk)
  · intro k hk
    rw [hkeys] at hk
    rcases List.mem_append.mp hk with h1 | h1
    · exact Nat.lt_succ_of_lt (b2 k h1)
    · obtain rfl := List.mem_singleton.mp h1
      exact Nat.lt_succ_self _

/-- KeysOk is preserved by every store operation. -/
theorem keysOk_step (s : StoreState) (op : Op) (h : KeysOk s) :
    KeysOk (step s op) := by
  cases op with
  | storeTaskIns t =>
    simp only [step]
    unfold store_task_ins
    split
    · exact h
    · split
      · exact h
      · exact keysOk_insert_ins s { t with task_id := toString s.fresh } h
  | storeTaskRes t =>
    simp only [step]
    unfold store_task_res
    split
    · exact h
    · split
      · exact h
      · exact keysOk_insert_res s { t with task_id := toString s.fresh } h
  | getTaskIns nid lim t =>
    simp only [step]
    cases hg : get_task_ins s nid lim t with
    | error e => exact h
    | ok p =>
      obtain ⟨-, hins, hres, -, -, hfresh⟩ := get_task_ins_ok s nid lim t p hg
      refine keysOk_of_eq s p.2 h ?_ ?_ hfresh
      · unfold insKeys
        rw [hins]
        exact insLoop_post_keys nid lim (isoformat t) s.task_ins_store 0
      · unfold resKeys
        rw [hres]
  | getTaskRes ids lim t =>
    simp only [step]
    cases hg : get_task_res s ids lim t with
    | error e => exact h
    | ok p =>
      obtain ⟨q, hq, -, hres, hins, -, -, hfresh⟩ :=
        get_task_res_ok s ids lim t p hg
      refine keysOk_of_eq s p.2 h ?_ ?_ hfresh
      · unfold insKeys
        rw [hins]
      · unfold resKeys
        rw [hres]
        exact resLoop_post_keys ids lim (isoformat t) s.task_res_store 0 q hq
  | deleteTasks ids =>
    simp only [step]
    cases hg : delete_tasks s ids with
    | ok s' =>
      obtain ⟨-, -, hfresh, hi, hr⟩ := delete_tasks_state s ids s' (Or.inl hg)
      exact keysOk_of_sub s s' h hi hr hfresh
    | error e =>
      obtain ⟨e1, e2⟩ := e
      obtain ⟨-, -, hfresh, hi, hr⟩ :=
        delete_tasks_state s ids e2 (Or.inr ⟨e1, hg⟩)
      exact keysOk_of_sub s e2 h hi hr hfresh
  | createNode r t =>
    simp only [step]
    unfold create_node
    split
    · exact keysOk_of_eq s _ h rfl rfl rfl
    · exact h
  | deleteNode nid =>
    simp only [step]
    cases hg : delete_node s nid with
    | ok s' =>
      unfold delete_node at hg
      split at hg
      · cases hg
      · rw [← Except.ok.inj hg]
        exact keysOk_of_eq s _ h rfl rfl rfl
    | error e => exact h
  | getNodes rid t => exact h
  | createRun r =>
    simp only [step]
    unfold create_run
    split
    · exact keysOk_of_eq s _ h rfl rfl rfl
    · exact h
  | acknowledgePing nid ping t =>
    simp only [step]
    unfold acknowledge_ping
    split
    · exact keysOk_of_eq s _ h rfl rfl rfl
    · exact h

/-- SafeAt carries through a whole trace. -/
theorem safeAt_exec (ops : List Op) :
    ∀ (s : StoreState) (i : Nat), SafeAt s i → SafeAt (execOps s ops) i := by
  induction ops with
  | nil => intro s i h; exact h
  | cons op rest ih => intro s i h; exact ih _ _ (safeAt_step s op i h)

/-- KeysOk carries through a whole trace. -/
theorem keysOk_exec (ops : List Op) :
    ∀ s : StoreState, KeysOk s → KeysOk (execOps s ops) := by
  induction ops with
  | nil => intro s h; exact h
  | cons op rest ih => intro s h; exact ih _ (keysOk_step s op h)

/-- The empty store is well formed. -/
theorem keysOk_init : KeysOk initState :=
  ⟨List.nodup_nil, List.nodup_nil,
    fun k hk => absurd hk (List.not_mem_nil k),
    fun k hk => absurd hk (List.not_mem_nil k),
    fun k hk => absurd hk (List.not_mem_nil k)⟩

/-- Immediately after the step of a get operation, every key it handed out is
spent: all records stored under it (in either store) are stamped with the
call's nonempty timestamp, and the key is below the fresh supply. -/
theorem out_safeAt (s : StoreState) (op : Op) (i : Nat) (hk : KeysOk s)
    (h : i ∈ getOut s op) : SafeAt (step s op) i := by
  cases op with
  | getTaskIns nid lim t =>
    simp only [getOut] at h
    cases hg : get_task_ins s nid lim t with
    | error e => simp only [hg] at h; cases h
    | ok p =>
      simp only [hg] at h
      obtain ⟨hp1, hins, hres, -, -, hfresh⟩ := get_task_ins_ok s nid lim t
        p hg
      rw [hp1] at h
      simp only [List.map_map, List.mem_map, Function.comp] at h
      obtain ⟨y, hy, rfl⟩ := h
      have hselkeys : y.1 ∈ (getTaskInsLoop nid lim (isoformat t)
          s.task_ins_store 0).1.map (fun kv => kv.1) :=
        List.mem_map.mpr ⟨y, hy, rfl⟩
      have hmem := (insLoop_sel_sound nid lim (isoformat t)
        s.task_ins_store 0 y hy).1
      have hikey : y.1 ∈ insKeys s := List.mem_map.mpr ⟨y, hmem, rfl⟩
      have hstep : step s (.getTaskIns nid lim t) = p.2 := by
        simp only [step, hg]
      rw [hstep]
      refine ⟨?_, ?_, ?_⟩
      · rw [hfresh]
        exact hk.bndIns _ hikey
      · intro r hr
        rw [hins] at hr
        have := insLoop_post_stamped nid lim (isoformat t) s.task_ins_store
          0 y.1 r hk.ndIns hselkeys hr
        rw [this]
        exact isoformat_ne_empty t
      · intro r hr
        rw [hres] at hr
        have : y.1 ∈ resKeys s := List.mem_map.mpr ⟨(y.1, r), hr, rfl⟩
        exact absurd this (hk.disj _ hikey)
  | getTaskRes ids lim t =>
    simp only [getOut] at h
    cases hg : get_task_res s ids lim t with
    | error e => simp only [hg] at h; cases h
    | ok p =>
      simp only [hg] at h
      obtain ⟨q, hq, hp1, hres, hins, -, -, hfresh⟩ :=
        get_task_res_ok s ids lim t p hg
      rw [hp1] at h
      simp only [List.map_map, List.mem_map, Function.comp] at h
      obtain ⟨y, hy, rfl⟩ := h
      have hselkeys : y.1 ∈ q.1.map (fun kv => kv.1) :=
        List.mem_map.mpr ⟨y, hy, rfl⟩
      have hmem := (resLoop_sel_sound ids lim (isoformat t)
        s.task_res_store 0 q hq y hy).1
      have hikey : y.1 ∈ resKeys s := List.mem_map.mpr ⟨y, hmem, rfl⟩
      have hstep : step s (.getTaskRes ids lim t) = p.2 := by
        simp only [step, hg]
      rw [hstep]
      refine ⟨?_, ?_, ?_⟩
      · rw [hfresh]
        exact hk.bndRes _ hikey
      · intro r hr
        rw [hins] at hr
        have : y.1 ∈ insKeys s := List.mem_map.mpr ⟨(y.1, r), hr, rfl⟩
        exact absurd hikey (hk.disj _ this)
      · intro r hr
        rw [hres] at hr
        have := resLoop_post_stamped ids lim (isoformat t) s.task_res_store
          0 q hq y.1 r hk.ndRes hselkeys hr
        rw [this]
        exact isoformat_ne_empty t
  | storeTaskIns t => cases h
  | storeTaskRes t => cases h
  | deleteTasks ids => cases h
  | createNode r t => cases h
  | deleteNode nid => cases h
  | getNodes rid t => cases h
  | createRun r => cases h
  | acknowledgePing nid ping t => cases h

/-- Claim C2: delivery-once over whole operation histories.  Starting from
the empty store, if some get_task_ins or get_task_res call of the history
returns the task stored under key i, then after any further operations every
record still stored under i (in either task store) has nonempty delivered_at,
and no later get call ever returns that task again. -/
theorem C2_delivery_once (ops1 : List Op) (op : Op) (i : Nat)
    (ops2 : List Op) (op2 : Op)
    (h : i ∈ getOut (execOps initState ops1) op) :
    (∀ r : TaskIns,
      (i, r) ∈ (execOps (step (execOps initState ops1) op)
        ops2).task_ins_store →
      r.task.delivered_at ≠ "") ∧
    (∀ r : TaskRes,
      (i, r) ∈ (execOps (step (execOps initState ops1) op)
        ops2).task_res_store →
      r.task.delivered_at ≠ "") ∧
    i ∉ getOut (execOps (step (execOps initState ops1) op) ops2) op2 := by
  have hk : KeysOk (execOps initState ops1) :=
    keysOk_exec ops1 initState keysOk_init
  have hsafe1 : SafeAt (step (execOps initState ops1) op) i :=
    out_safeAt _ op i hk h
  have hsafe2 : SafeAt (execOps (step (execOps initState ops1) op) ops2) i :=
    safeAt_exec ops2 _ i hsafe1
  exact ⟨hsafe2.2.1, hsafe2.2.2, stampedAt_not_out _ op2 i hsafe2.2⟩

/-- Witness for C2 on a concrete history: run 5 is created, the anonymous
TaskIns wIns is stored (key 0), an anonymous get_task_ins returns it, and an
identical later get does not return it again. -/
theorem C2_witness :
    0 ∈ getOut (execOps initState [.createRun 5, .storeTaskIns wIns])
      (.getTaskIns none none 7) ∧
    0 ∉ getOut (execOps (step (execOps initState
        [.createRun 5, .storeTaskIns wIns]) (.getTaskIns none none 7)) [])
      (.getTaskIns none none 8) := by
  refine ⟨by decide, ?_⟩
  exact (C2_delivery_once [.createRun 5, .storeTaskIns wIns]
    (.getTaskIns none none 7) 0 [] (.getTaskIns none none 8) (by decide)).2.2

end Flwr
